import Mathlib

/-!
Verification of the adaptive web crawler's core against its specification.

Shallow embedding of the Python sources:
  * `src/utils/hash_utils.py`   (SimHash fingerprint similarity)
  * `src/core/rate_limiter.py`  (per-domain adaptive rate limiting)
  * `src/core/url_frontier.py`  (priority frontier on top of `heapq`)
  * `src/core/crawler_engine.py` (worker disposition logic)
  * `src/core/url_normalizer.py` (URL canonicalization over `urllib.parse`)

Machine floats that only ever hold exactly representable control values are
modelled by rationals; Python machine integers are unbounded, as are Lean's
`Nat`/`Int`.  Strings are modelled character-wise, faithful for ASCII data
(URLs are ASCII by RFC 3986; non-ASCII bytes never appear in any theorem).
-/

namespace HashUtils

/-- The loop body of `SimHash.hamming_distance` from `src/utils/hash_utils.py`:
repeatedly clear the lowest set bit (`xor &= xor - 1`) and count iterations. -/
def popLoop (x : Nat) : Nat :=
  if h : x = 0 then 0
  else 1 + popLoop (x &&& (x - 1))
termination_by x
decreasing_by
  exact Nat.lt_of_le_of_lt (Nat.and_le_right) (Nat.sub_lt (Nat.pos_of_ne_zero h) one_pos)

/-- `SimHash.hamming_distance(hash1, hash2)`: popcount of the XOR, computed by
the bit-clearing loop of the source. -/
def hamming_distance (hash1 hash2 : Nat) : Nat :=
  popLoop (hash1 ^^^ hash2)

/-- `SimHash` carries the configured number of fingerprint bits
(`hash_bits`, default 64). -/
structure SimHash where
  hash_bits : Nat := 64

/-- `SimHash.similarity(hash1, hash2) = 1.0 - distance / hash_bits`,
modelled over the rationals. -/
def SimHash.similarity (s : SimHash) (hash1 hash2 : Nat) : ℚ :=
  1 - (hamming_distance hash1 hash2 : ℚ) / (s.hash_bits : ℚ)

/-- The specification's `popcount`: number of set bits, by binary recursion.
(Spec-side definition, used to compare the source's bit-clearing loop
against the spec's `popcount(h1 XOR h2)`.) -/
def spec_popcount (x : Nat) : Nat :=
  if h : x = 0 then 0
  else x % 2 + spec_popcount (x / 2)
termination_by x
decreasing_by
  exact Nat.div_lt_self (Nat.pos_of_ne_zero h) one_lt_two

end HashUtils

namespace RateLimiter

/-- `DomainState` from `src/core/rate_limiter.py`.  Float fields are modelled
by rationals; `current_delay` is initialized by the dataclass default `1.0`. -/
structure DomainState where
  last_request_time : ℚ := 0
  request_count : Nat := 0
  error_count : Nat := 0
  consecutive_errors : Nat := 0
  avg_response_time : ℚ := 0
  current_delay : ℚ := 1
  response_times : List ℚ := []

/-- `DomainState.record_request(response_time, success)`; `time.time()` is the
explicit `now` argument.  Keeps the last 50 response times (`[-50:]`). -/
def DomainState.record_request (s : DomainState) (response_time : ℚ)
    (success : Bool) (now : ℚ) : DomainState :=
  let s1 := { s with last_request_time := now, request_count := s.request_count + 1 }
  if success then
    let rts := (s1.response_times ++ [response_time])
    let rts := rts.drop (rts.length - 50)
    { s1 with consecutive_errors := 0, response_times := rts,
              avg_response_time := rts.sum / (rts.length : ℚ) }
  else
    { s1 with error_count := s1.error_count + 1,
              consecutive_errors := s1.consecutive_errors + 1 }

/-- `AdaptiveRateLimiter` state: construction parameters plus the
`defaultdict(DomainState)` map from domain to state. -/
structure AdaptiveRateLimiter where
  base_delay : ℚ
  min_delay : ℚ
  max_delay : ℚ
  adaptive : Bool
  jitter : ℚ
  domains : String → DomainState

/-- `AdaptiveRateLimiter.__init__(requests_per_second, min_delay, max_delay,
adaptive, jitter)` with the source's defaults. -/
def init (requests_per_second : ℚ := 2) (min_delay : ℚ := 1/2)
    (max_delay : ℚ := 10) (adaptive : Bool := true) (jitter : ℚ := 3/10) :
    AdaptiveRateLimiter :=
  { base_delay := 1 / requests_per_second
    min_delay := min_delay
    max_delay := max_delay
    adaptive := adaptive
    jitter := jitter
    domains := fun _ => {} }

/-- `AdaptiveRateLimiter._adjust_delay(state, status_code)`.
`0.95` is the rational `19/20`. -/
def adjust_delay (L : AdaptiveRateLimiter) (s : DomainState) (status_code : Int) :
    DomainState :=
  if status_code = 429 then
    { s with current_delay := min (s.current_delay * 3) L.max_delay }
  else if status_code ≥ 500 then
    { s with current_delay := min (s.current_delay * 2) L.max_delay }
  else if s.consecutive_errors ≥ 3 then
    { s with current_delay := min (s.current_delay * 2) L.max_delay }
  else if s.consecutive_errors = 0 ∧ status_code < 400 then
    { s with current_delay := max (s.current_delay * (19/20)) L.min_delay }
  else s

/-- `AdaptiveRateLimiter.record(domain, response_time, success, status_code)`. -/
def record (L : AdaptiveRateLimiter) (domain : String) (response_time : ℚ)
    (success : Bool) (status_code : Int) (now : ℚ) : AdaptiveRateLimiter :=
  let s := (L.domains domain).record_request response_time success now
  let s := if L.adaptive then adjust_delay L s status_code else s
  { L with domains := fun d => if d = domain then s else L.domains d }

/-- `AdaptiveRateLimiter.set_crawl_delay(domain, delay)`. -/
def set_crawl_delay (L : AdaptiveRateLimiter) (domain : String) (delay : ℚ) :
    AdaptiveRateLimiter :=
  let s := { L.domains domain with current_delay := max delay L.min_delay }
  { L with domains := fun d => if d = domain then s else L.domains d }

end RateLimiter

namespace Heapq

/-!
Model of CPython's `heapq.heappush` / `heapq.heappop` (list-based binary
min-heap), as used by `URLFrontier`.  Comparison happens through `<` on the
element's `key`; for `URLEntry` (`@dataclass(order=True)` with every field
except `priority` marked `compare=False`) the key is exactly `priority`.
All `heapq` entry points called by the frontier use `startpos = 0`.
-/

variable {α : Type} [Inhabited α]

/-- The loop of `heapq._siftdown(heap, startpos, pos)` with the moved item
already read out: bubble `newitem` up while it is `<` its parent, shifting
parents down. -/
def siftdownLoop (key : α → Nat) (heap : List α) (startpos pos : Nat)
    (newitem : α) : List α :=
  if h : startpos < pos then
    let parentpos := (pos - 1) / 2
    let parent := heap.getD parentpos default
    if key newitem < key parent then
      siftdownLoop key (heap.set pos parent) startpos parentpos newitem
    else
      heap.set pos newitem
  else
    heap.set pos newitem
termination_by pos
decreasing_by
  exact Nat.lt_of_le_of_lt (Nat.div_le_self _ _) (by omega)

/-- `heapq._siftdown(heap, startpos, pos)`: read `heap[pos]` then run the
loop.  (Out-of-range `pos` would raise in Python; the frontier never does.) -/
def siftdown (key : α → Nat) (heap : List α) (startpos pos : Nat) : List α :=
  match heap.get? pos with
  | none => heap
  | some newitem => siftdownLoop key heap startpos pos newitem

/-- Child selected by `heapq._siftup`: the right child when it exists and the
left child is not `<` it, otherwise the left child. -/
def childSel (key : α → Nat) (heap : List α) (pos : Nat) : Nat :=
  if 2 * pos + 2 < heap.length ∧
      ¬ key (heap.getD (2 * pos + 1) default) < key (heap.getD (2 * pos + 2) default) then
    2 * pos + 2
  else
    2 * pos + 1

/-- The descending loop of `heapq._siftup`: move the selected child up into
the hole and descend until the hole has no left child.  Returns the final
hole position. -/
def siftupLoop (key : α → Nat) (heap : List α) (pos : Nat) : List α × Nat :=
  if h : 2 * pos + 1 < heap.length then
    let c := childSel key heap pos
    siftupLoop key (heap.set pos (heap.getD c default)) c
  else
    (heap, pos)
termination_by heap.length - pos
decreasing_by
  simp only [List.length_set]
  have hc : 2 * pos + 1 ≤ childSel key heap pos := by
    unfold childSel
    split <;> omega
  have hc2 : childSel key heap pos < heap.length := by
    unfold childSel
    split <;> omega
  omega

/-- `heapq._siftup(heap, pos)`: record `newitem = heap[pos]`, run the
descending loop, place `newitem` in the final hole and bubble it up with
`_siftdown(heap, pos, finalpos)` (the loop overwrites the hole first). -/
def siftup (key : α → Nat) (heap : List α) (pos : Nat) : List α :=
  match heap.get? pos with
  | none => heap
  | some newitem =>
      let r := siftupLoop key heap pos
      siftdownLoop key r.1 pos r.2 newitem

/-- `heapq.heappush(heap, item)`. -/
def heappush (key : α → Nat) (heap : List α) (item : α) : List α :=
  let h := heap ++ [item]
  siftdown key h 0 (h.length - 1)

/-- `heapq.heappop(heap)`: pop the last element; if the heap is still
non-empty, move it to the root and repair with `_siftup(heap, 0)`.
Returns `none` on an empty heap (Python raises `IndexError`). -/
def heappop (key : α → Nat) (heap : List α) : Option (α × List α) :=
  match heap.getLast? with
  | none => none
  | some lastelt =>
      match heap.dropLast with
      | [] => some (lastelt, [])
      | r0 :: rtail => some (r0, siftup key (lastelt :: rtail) 0)

/-- The binary min-heap invariant on the key: every non-root element is `≥`
its parent at index `(i-1)/2`. -/
def IsHeap (key : α → Nat) (l : List α) : Prop :=
  ∀ i, 0 < i → i < l.length →
    key (l.getD ((i - 1) / 2) default) ≤ key (l.getD i default)


/-- Invariant of `_siftdown`'s ascent (with `startpos = 0`): the heap property
holds everywhere except on the edge into the hole `pos`; `newitem` fits below
the hole; and the hole's children fit below the hole's parent. -/
structure SDInv (key : α → Nat) (l : List α) (pos : Nat) (newitem : α) : Prop where
  hpos : pos < l.length
  hedges : ∀ i, 0 < i → i < l.length → i ≠ pos →
    key (l.getD ((i - 1) / 2) default) ≤ key (l.getD i default)
  hchild : ∀ i, 0 < i → i < l.length → (i - 1) / 2 = pos →
    key newitem ≤ key (l.getD i default)
  hgrand : ∀ i, 0 < i → i < l.length → (i - 1) / 2 = pos → 0 < pos →
    key (l.getD ((pos - 1) / 2) default) ≤ key (l.getD i default)

/-- Invariant of `_siftup`'s descent: the heap property holds on every edge
not touching the hole `pos`, and the hole's children fit below its parent. -/
structure SUInv (key : α → Nat) (l : List α) (pos : Nat) : Prop where
  hpos : pos < l.length
  hedges : ∀ i, 0 < i → i < l.length → i ≠ pos → (i - 1) / 2 ≠ pos →
    key (l.getD ((i - 1) / 2) default) ≤ key (l.getD i default)
  hpar : ∀ i, 0 < i → i < l.length → (i - 1) / 2 = pos → 0 < pos →
    key (l.getD ((pos - 1) / 2) default) ≤ key (l.getD i default)

end Heapq

namespace Frontier

/-- `md5_hash(content)` from `src/utils/hash_utils.py`.  The MD5 hex digest
is modelled as the message itself: an injective stand-in for the digest.
Every frontier claim depends only on the digest being a deterministic,
collision-free function of its input. -/
def md5_hash (content : String) : String := content

/-- Python `str.lower()`, character-wise (ASCII-faithful). -/
def py_lower (s : String) : String := String.mk (s.data.map Char.toLower)

/-- Python `str.strip()`: drop leading and trailing whitespace. -/
def py_strip (s : String) : String :=
  String.mk (((s.data.dropWhile Char.isWhitespace).reverse.dropWhile
    Char.isWhitespace).reverse)

/-- `url_hash(url)`: digest of `url.lower().strip()`. -/
def url_hash (url : String) : String := md5_hash (py_strip (py_lower url))

/-- The `URLPriority` int enum. -/
inductive URLPriority where
  | CRITICAL
  | HIGH
  | NORMAL
  | LOW
  | DEFERRED
deriving DecidableEq

/-- The numeric `.value` of each `URLPriority` member. -/
def URLPriority.value : URLPriority → Nat
  | .CRITICAL => 0
  | .HIGH => 1
  | .NORMAL => 2
  | .LOW => 3
  | .DEFERRED => 4

/-- The `URLEntry` dataclass (`order=True`; every field except `priority` is
`compare=False`, so ordering is on `priority` alone).  `discovered_at` is the
`time.time()` float timestamp, modelled as a caller-supplied tick; `metadata`
is an association list. -/
structure URLEntry where
  priority : Nat
  depth : Nat
  url : String
  parent_url : String := ""
  discovered_at : Nat := 0
  retry_count : Nat := 0
  metadata : List (String × String) := []
deriving DecidableEq, Inhabited

/-- `URLFrontier` state: bounded priority queue plus bookkeeping sets.
`failed_urls` is the retry-count dict with `.get(h, 0)` semantics. -/
structure URLFrontier where
  max_depth : Nat
  max_urls : Nat
  queue : List URLEntry := []
  seen_urls : Finset String := ∅
  crawled_urls : Finset String := ∅
  failed_urls : String → Nat := fun _ => 0
  total_added : Nat := 0
  total_duplicates_skipped : Nat := 0

/-- `URLFrontier.__init__(max_depth, max_urls)` (defaults 3 and 10000). -/
def URLFrontier.mk_init (max_depth : Nat := 3) (max_urls : Nat := 10000) :
    URLFrontier :=
  { max_depth := max_depth, max_urls := max_urls }

/-- `URLFrontier.add(url, depth, priority, parent_url, metadata)`:
dedup on the URL hash, then depth and capacity checks, then admission. -/
def URLFrontier.add (f : URLFrontier) (url : String) (depth : Nat)
    (priority : URLPriority := .NORMAL) (parent_url : String := "")
    (metadata : List (String × String) := []) (now : Nat := 0) :
    Bool × URLFrontier :=
  let uhash := url_hash url
  if uhash ∈ f.seen_urls then
    (false, { f with total_duplicates_skipped := f.total_duplicates_skipped + 1 })
  else if depth > f.max_depth then
    (false, f)
  else if f.queue.length ≥ f.max_urls then
    (false, f)
  else
    let entry : URLEntry :=
      { priority := priority.value, depth := depth, url := url
        parent_url := parent_url, discovered_at := now, metadata := metadata }
    (true, { f with
      seen_urls := insert uhash f.seen_urls
      queue := Heapq.heappush URLEntry.priority f.queue entry
      total_added := f.total_added + 1 })

/-- `URLFrontier.get()`: pop the heap, `none` when the queue is empty
(the asyncio timeout path). -/
def URLFrontier.get (f : URLFrontier) : Option URLEntry × URLFrontier :=
  match Heapq.heappop URLEntry.priority f.queue with
  | none => (none, f)
  | some (e, q) => (some e, { f with queue := q })

/-- `URLFrontier.mark_crawled(url)`. -/
def URLFrontier.mark_crawled (f : URLFrontier) (url : String) : URLFrontier :=
  { f with crawled_urls := insert (url_hash url) f.crawled_urls }

/-- `URLFrontier.mark_failed(url, max_retries)`: bump the per-hash failure
count and report whether a retry is still allowed. -/
def URLFrontier.mark_failed (f : URLFrontier) (url : String)
    (max_retries : Nat := 3) : Bool × URLFrontier :=
  let uhash := url_hash url
  let newcount := f.failed_urls uhash + 1
  (newcount < max_retries,
   { f with failed_urls := fun h => if h = uhash then newcount else f.failed_urls h })

/-- Frontier states reachable from `__init__` through the public mutators. -/
inductive Reachable : URLFrontier → Prop where
  | init (max_depth max_urls : Nat) :
      Reachable (URLFrontier.mk_init max_depth max_urls)
  | add (f : URLFrontier) (url : String) (depth : Nat) (priority : URLPriority)
      (parent_url : String) (metadata : List (String × String)) (now : Nat) :
      Reachable f → Reachable (f.add url depth priority parent_url metadata now).2
  | get (f : URLFrontier) : Reachable f → Reachable (f.get).2
  | mark_crawled (f : URLFrontier) (url : String) :
      Reachable f → Reachable (f.mark_crawled url)
  | mark_failed (f : URLFrontier) (url : String) (max_retries : Nat) :
      Reachable f → Reachable (f.mark_failed url max_retries).2

/-- The frontier invariants: the queue is a binary min-heap on `priority`,
every queued URL hash is in the seen set, and the queue is bounded. -/
structure FrontierInv (f : URLFrontier) : Prop where
  hheap : Heapq.IsHeap URLEntry.priority f.queue
  hseen : ∀ e ∈ f.queue, url_hash e.url ∈ f.seen_urls
  hsize : f.queue.length ≤ f.max_urls

end Frontier

namespace Engine

/-- Outcome of `CrawlerEngine._crawl_page` as seen by `_worker`: a page dict
(with its extracted internal/external links), `None` (robots block or
non-success fetch), or an exception escaping the handler. -/
inductive HandlerOutcome where
  | page (internal : List String) (external : List String)
  | nullResult
  | exc

/-- The engine state a worker iteration touches. -/
structure EngineState where
  frontier : Frontier.URLFrontier
  follow_external_links : Bool := false
  pages_crawled : Nat := 0
  pages_failed : Nat := 0

/-- `CrawlerEngine._process_links`: internal links at `NORMAL`, then at most
10 external links at `DEFERRED` when `follow_external_links` is set. -/
def process_links (f : Frontier.URLFrontier) (internal external : List String)
    (follow_external : Bool) (parent_url : String) (depth : Nat) (now : Nat) :
    Frontier.URLFrontier :=
  let f1 := internal.foldl
    (fun g l => (g.add l depth .NORMAL parent_url [] now).2) f
  if follow_external then
    (external.take 10).foldl
      (fun g l => (g.add l depth .DEFERRED parent_url [] now).2) f1
  else f1

/-- One `CrawlerEngine._worker` iteration after `frontier.get` returned
`entry` (crawler_engine.py lines 176-205): mark crawled and enqueue links on
a result; count a failure on `None`; on an exception count a failure, call
`mark_failed`, and re-add at `LOW` priority when retries remain. -/
def worker_handle (st : EngineState) (entry : Frontier.URLEntry)
    (outcome : HandlerOutcome) (now : Nat) : EngineState :=
  match outcome with
  | .page internal external =>
      let f := st.frontier.mark_crawled entry.url
      let f := process_links f internal external st.follow_external_links
        entry.url (entry.depth + 1) now
      { st with frontier := f, pages_crawled := st.pages_crawled + 1 }
  | .nullResult =>
      { st with pages_failed := st.pages_failed + 1 }
  | .exc =>
      let st2 := { st with pages_failed := st.pages_failed + 1 }
      let r := st2.frontier.mark_failed entry.url 3
      if r.1 then
        { st2 with frontier := (r.2.add entry.url entry.depth .LOW "" [] now).2 }
      else
        { st2 with frontier := r.2 }

end Engine

namespace UrlLib

/-!
Model of the `urllib.parse` machinery used by `URLNormalizer`
(CPython 3.11), character-wise.  Scope: ASCII data.  Two deliberate
restrictions, both stated in every theorem that depends on them: percent
escapes decode to single code points (CPython decodes byte runs then UTF-8,
identical for ASCII escapes), and bracketed IPv6 hosts are modelled as
parse errors (CPython validates them; the normalizer's URLs are name-based).
-/

def isHexDigit (c : Char) : Bool :=
  c.isDigit || (decide ('a' ≤ c) && decide (c ≤ 'f')) ||
    (decide ('A' ≤ c) && decide (c ≤ 'F'))

def hexVal (c : Char) : Nat :=
  if c.isDigit then c.toNat - 48
  else if decide ('a' ≤ c) then c.toNat - 87
  else c.toNat - 55

def hexDigitUpper (n : Nat) : Char :=
  if n < 10 then Char.ofNat (48 + n) else Char.ofNat (55 + n)

/-- `urllib.parse.unquote` on the character sequence: a `%` followed by two
hex digits decodes to the code point of the byte; an invalid escape keeps
the `%` literal. -/
def unquoteAux : List Char → List Char
  | [] => []
  | '%' :: a :: b :: rest =>
      if isHexDigit a ∧ isHexDigit b then
        Char.ofNat (16 * hexVal a + hexVal b) :: unquoteAux rest
      else
        '%' :: unquoteAux (a :: b :: rest)
  | c :: rest => c :: unquoteAux rest

def unquote (s : String) : String := String.mk (unquoteAux s.data)

def pct (n : Nat) : List Char :=
  ['%', hexDigitUpper (n / 16), hexDigitUpper (n % 16)]

/-- UTF-8 bytes of a code point (CPython encodes non-ASCII before
percent-quoting). -/
def utf8Bytes (c : Char) : List Nat :=
  let n := c.toNat
  if n < 128 then [n]
  else if n < 2048 then [192 + n / 64, 128 + n % 64]
  else if n < 65536 then [224 + n / 4096, 128 + (n / 64) % 64, 128 + n % 64]
  else [240 + n / 262144, 128 + (n / 4096) % 64, 128 + (n / 64) % 64, 128 + n % 64]

/-- `urllib.parse.quote` for one character: the always-safe set is ASCII
alphanumerics plus `_.-~`; everything else not in `safe` is percent-encoded
in uppercase hex. -/
def quoteChar (safe : List Char) (c : Char) : List Char :=
  if c.isAlphanum || c ∈ ['_', '.', '-', '~'] || c ∈ safe then [c]
  else ((utf8Bytes c).map pct).flatten

def quote (s : String) (safe : String) : String :=
  String.mk ((s.data.map (quoteChar safe.data)).flatten)

/-- `urllib.parse.quote_plus` with `safe=""` (as `urlencode` uses it). -/
def quote_plus (s : String) : String :=
  if ' ' ∈ s.data then
    String.mk ((quote s " ").data.map (fun c => if c = ' ' then '+' else c))
  else quote s ""

/-- `urllib.parse.urlencode` with the default `quote_via=quote_plus`. -/
def urlencode (parts : List (String × String)) : String :=
  String.intercalate "&" (parts.map (fun kv => quote_plus kv.1 ++ "=" ++ quote_plus kv.2))

/-- Python `str.split(sep)` on a single-character separator. -/
def splitOnChar (sep : Char) : List Char → List (List Char)
  | [] => [[]]
  | c :: rest =>
      if c = sep then [] :: splitOnChar sep rest
      else
        match splitOnChar sep rest with
        | [] => [[c]]
        | h :: t => (c :: h) :: t

/-- Python `str.partition(sep)` (single-character separator): split at the
first occurrence, `none` when absent. -/
def partitionChar (sep : Char) : List Char → Option (List Char × List Char)
  | [] => none
  | c :: rest =>
      if c = sep then some ([], rest)
      else
        match partitionChar sep rest with
        | none => none
        | some (a, b) => some (c :: a, b)

/-- Python `str.rpartition(sep)`: split at the last occurrence. -/
def rpartitionChar (sep : Char) (l : List Char) : Option (List Char × List Char) :=
  match partitionChar sep l.reverse with
  | none => none
  | some (a, b) => some (b.reverse, a.reverse)

def plusToSpace (l : List Char) : List Char :=
  l.map (fun c => if c = '+' then ' ' else c)

/-- `urllib.parse.parse_qsl(qs, keep_blank_values=True)`: split fields on
`&`, skip empty fields, split each at the first `=` (a field without `=`
keeps a blank value), then replace `+` by space and percent-decode both
name and value. -/
def parse_qsl (qs : String) : List (String × String) :=
  (splitOnChar '&' qs.data).filterMap (fun nv =>
    if nv = [] then none
    else
      let p := match partitionChar '=' nv with
        | none => (nv, [])
        | some (a, b) => (a, b)
      some (String.mk (unquoteAux (plusToSpace p.1)),
            String.mk (unquoteAux (plusToSpace p.2))))

/-- `dict` grouping of `parse_qs`: first-occurrence key order, values
appended in field order. -/
def insertQS (acc : List (String × List String)) (k v : String) :
    List (String × List String) :=
  match acc with
  | [] => [(k, [v])]
  | (k2, vs) :: rest =>
      if k2 = k then (k2, vs ++ [v]) :: rest
      else (k2, vs) :: insertQS rest k v

/-- `urllib.parse.parse_qs(qs, keep_blank_values=True)`. -/
def parse_qs (qs : String) : List (String × List String) :=
  (parse_qsl qs).foldl (fun acc kv => insertQS acc kv.1 kv.2) []

/-- Stable insertion used by `sortBy` (Python `sorted`). -/
def insortBy {α : Type} (lt : α → α → Bool) (x : α) : List α → List α
  | [] => [x]
  | y :: rest => if lt x y then x :: y :: rest else y :: insortBy lt x rest

/-- Python `sorted`: stable, comparisons by `<`. -/
def sortBy {α : Type} (lt : α → α → Bool) (l : List α) : List α :=
  l.foldl (fun acc x => insortBy lt x acc) []

/-- Python string `<`: lexicographic on code points. -/
def charsLt : List Char → List Char → Bool
  | [], [] => false
  | [], _ :: _ => true
  | _ :: _, [] => false
  | a :: as, b :: bs =>
      if a < b then true else if b < a then false else charsLt as bs

def strLt (a b : String) : Bool := charsLt a.data b.data

/-- The five components of `urlsplit`. -/
structure SplitResult where
  scheme : String
  netloc : String
  path : String
  query : String
  fragment : String
deriving DecidableEq

/-- The six components of `urlparse`. -/
structure ParseResult where
  scheme : String
  netloc : String
  path : String
  params : String
  query : String
  fragment : String
deriving DecidableEq

def isC0orSpace (c : Char) : Bool := c.toNat ≤ 32

def isUnsafeByte (c : Char) : Bool :=
  c = Char.ofNat 9 ∨ c = Char.ofNat 13 ∨ c = Char.ofNat 10

def schemeChar (c : Char) : Bool :=
  c.isAlphanum || c = '+' || c = '-' || c = '.'

/-- `_splitnetloc`: the netloc runs to the first `/`, `?` or `#`. -/
def splitnetloc : List Char → List Char × List Char
  | [] => ([], [])
  | c :: rest =>
      if c = '/' ∨ c = '?' ∨ c = '#' then ([], c :: rest)
      else
        let p := splitnetloc rest
        (c :: p.1, p.2)

/-- The scheme-detection step of `urlsplit`: a scheme is split off when a
colon appears at position `> 0`, the first character is an ASCII letter and
the rest are scheme characters. -/
def splitScheme (url2 : List Char) : List Char × List Char :=
  match partitionChar ':' url2 with
  | some (pre, post) =>
      if pre ≠ [] ∧ (pre.headD ' ').isAlpha ∧ pre.all schemeChar then
        (pre.map Char.toLower, post)
      else ([], url2)
  | none => ([], url2)

/-- The final steps of `urlsplit`: split the fragment at the first `#`,
then the query at the first `?` of what precedes it.  Returns
`(path, query, fragment)`. -/
def splitFragmentQuery (rest : List Char) : List Char × List Char × List Char :=
  let fr := match partitionChar '#' rest with
    | some (a, b) => (a, b)
    | none => (rest, [])
  let qr := match partitionChar '?' fr.1 with
    | some (a, b) => (a, b)
    | none => (fr.1, [])
  (qr.1, qr.2, fr.2)

/-- `urllib.parse.urlsplit` (CPython 3.11): strip leading C0-control/space,
drop tab/CR/LF, detect the scheme, split the netloc after `//`, then split
fragment and query.  A netloc containing `[` or `]` is a parse error
(CPython raises `ValueError` on unbalanced brackets and validates bracketed
IPv6 hosts; the model rejects both). -/
def urlsplitList (url0 : List Char) : Option SplitResult :=
  let url2 := (url0.dropWhile isC0orSpace).filter (fun c => ¬ isUnsafeByte c)
  let sp := splitScheme url2
  let nl :=
    if sp.2.take 2 = ['/', '/'] then splitnetloc (sp.2.drop 2)
    else ([], sp.2)
  if '[' ∈ nl.1 ∨ ']' ∈ nl.1 then none
  else
    let fq := splitFragmentQuery nl.2
    some ⟨String.mk sp.1, String.mk nl.1, String.mk fq.1,
          String.mk fq.2.1, String.mk fq.2.2⟩

/-- Decimal digits of `n`, most significant first, fuel-structured so the
recursion is structural; `fuel = n + 1` always suffices. -/
def natDigitsCore : Nat → Nat → List Char → List Char
  | 0, _, acc => acc
  | fuel + 1, n, acc =>
      let d := Char.ofNat (48 + n % 10)
      if n < 10 then d :: acc
      else natDigitsCore fuel (n / 10) (d :: acc)

/-- `str(n)` for an `int` port (the f-string `f"{hostname}:{port}"`). -/
def natRepr (n : Nat) : String := String.mk (natDigitsCore (n + 1) n [])

def uses_params : List String :=
  ["", "ftp", "hdl", "prospero", "http", "imap", "https", "shttp", "rtsp",
   "rtsps", "rtspu", "sip", "sips", "mms", "sftp", "tel"]

def uses_netloc : List String :=
  ["", "ftp", "http", "gopher", "nntp", "telnet", "imap", "wais", "file",
   "mms", "https", "shttp", "snews", "prospero", "rtsp", "rtsps", "rtspu",
   "rsync", "svn", "svn+ssh", "sftp", "nfs", "git", "git+ssh", "ws", "wss"]

/-- `_splitparams`: split the params off the last path segment. -/
def splitparams (l : List Char) : List Char × List Char :=
  if '/' ∈ l then
    match rpartitionChar '/' l with
    | some (before, after) =>
        match partitionChar ';' after with
        | none => (l, [])
        | some (a, b) => (before ++ '/' :: a, b)
    | none => (l, [])
  else
    match partitionChar ';' l with
    | none => (l, [])
    | some (a, b) => (a, b)

/-- `urllib.parse.urlparse`. -/
def urlparse (url : String) : Option ParseResult :=
  match urlsplitList url.data with
  | none => none
  | some sr =>
      if sr.scheme ∈ uses_params ∧ ';' ∈ sr.path.data then
        let p := splitparams sr.path.data
        some ⟨sr.scheme, sr.netloc, String.mk p.1, String.mk p.2,
              sr.query, sr.fragment⟩
      else
        some ⟨sr.scheme, sr.netloc, sr.path, "", sr.query, sr.fragment⟩

/-- `_hostinfo`: hostname and port strings of a (bracket-free) netloc. -/
def hostinfo (netloc : List Char) : List Char × List Char :=
  let hi := match rpartitionChar '@' netloc with
    | none => netloc
    | some (_, h) => h
  match partitionChar ':' hi with
  | none => (hi, [])
  | some (h, p) => (h, p)

/-- The `hostname` property: `None` when empty, otherwise lowercased up to
a `%` zone separator. -/
def hostnameOf (netloc : List Char) : Option String :=
  let h := (hostinfo netloc).1
  if h = [] then none
  else
    match partitionChar '%' h with
    | none => some (String.mk (h.map Char.toLower))
    | some (a, b) => some (String.mk (a.map Char.toLower ++ '%' :: b))

/-- The `port` property: `ValueError` (modelled as `.error`) on a
non-digit or out-of-range port. -/
def portOf (netloc : List Char) : Except Unit (Option Nat) :=
  let p := (hostinfo netloc).2
  if p = [] then .ok none
  else if p.all Char.isDigit then
    let n := p.foldl (fun acc c => acc * 10 + (c.toNat - 48)) 0
    if n ≤ 65535 then .ok (some n) else .error ()
  else .error ()

/-- The `username` property. -/
def usernameOf (netloc : List Char) : Option String :=
  match rpartitionChar '@' netloc with
  | none => none
  | some (ui, _) =>
      match partitionChar ':' ui with
      | none => some (String.mk ui)
      | some (u, _) => some (String.mk u)

/-- The `password` property. -/
def passwordOf (netloc : List Char) : Option String :=
  match rpartitionChar '@' netloc with
  | none => none
  | some (ui, _) =>
      match partitionChar ':' ui with
      | none => none
      | some (_, pw) => some (String.mk pw)

/-- `urllib.parse.urlunsplit`. -/
def urlunsplit (scheme netloc url query fragment : String) : String :=
  let url :=
    if netloc ≠ "" ∨ (scheme ≠ "" ∧ scheme ∈ uses_netloc ∧ url.data.take 2 ≠ ['/', '/']) then
      let url := if url ≠ "" ∧ url.data.take 1 ≠ ['/'] then "/" ++ url else url
      "//" ++ netloc ++ url
    else url
  let url := if scheme ≠ "" then scheme ++ ":" ++ url else url
  let url := if query ≠ "" then url ++ "?" ++ query else url
  if fragment ≠ "" then url ++ "#" ++ fragment else url

/-- `urllib.parse.urlunparse`. -/
def urlunparse (scheme netloc url params query fragment : String) : String :=
  urlunsplit scheme netloc (if params ≠ "" then url ++ ";" ++ params else url)
    query fragment

end UrlLib

namespace Normalizer

/-- `URLNormalizer.TRACKING_PARAMS`. -/
def TRACKING_PARAMS : List String :=
  ["utm_source", "utm_medium", "utm_campaign", "utm_term",
   "utm_content", "utm_id", "fbclid", "gclid", "gclsrc",
   "dclid", "msclkid", "twclid", "ref", "ref_src",
   "source", "mc_cid", "mc_eid", "si", "spm",
   "_ga", "_gl", "_hsenc", "_hsmi", "hsa_cam",
   "hsa_grp", "hsa_mt", "hsa_src", "hsa_ad", "hsa_acc",
   "hsa_net", "hsa_ver", "hsa_kw", "hsa_tgt", "hsa_la",
   "hsa_ol"]

/-- `URLNormalizer.ALLOWED_SCHEMES`. -/
def ALLOWED_SCHEMES : List String := ["http", "https"]

/-- `URLNormalizer.__init__` flags (source defaults all true). -/
structure URLNormalizer where
  remove_tracking : Bool := true
  remove_fragments : Bool := true
  sort_params : Bool := true

/-- The `safe` set of `_normalize_path`\'s `quote` call,
`"/:@!$&'()*+,;=-._~"` (the code point 39 entry is the apostrophe). -/
def pathSafe : List Char :=
  ['/', ':', '@', '!', '$', '&', Char.ofNat 39, '(', ')', '*', '+', ',',
   ';', '=', '-', '.', '_', '~']

/-- `re.sub(r"/+", "/", path)`. -/
def collapseSlashes : List Char → List Char
  | [] => []
  | [c] => [c]
  | c1 :: c2 :: rest =>
      if c1 = '/' ∧ c2 = '/' then collapseSlashes (c2 :: rest)
      else c1 :: collapseSlashes (c2 :: rest)

/-- The `.`/`..` resolution step of `_normalize_path`. -/
def resolveStep (resolved : List String) (seg : String) : List String :=
  if seg = "." then resolved
  else if seg = ".." ∧ resolved ≠ [] ∧ resolved.getLast? ≠ some "" then
    resolved.dropLast
  else resolved ++ [seg]

/-- `URLNormalizer._normalize_path`. -/
def normalize_path (path : String) : String :=
  let path := collapseSlashes path.data
  let segments := (UrlLib.splitOnChar '/' path).map String.mk
  let resolved := segments.foldl resolveStep []
  let path := String.intercalate "/" resolved
  let path := if path.data.take 1 ≠ ['/'] then "/" ++ path else path
  let path :=
    if path ≠ "/" ∧ path.data.getLast? = some '/' then
      String.mk (path.data.reverse.dropWhile (· = '/')).reverse
    else path
  UrlLib.quote path (String.mk pathSafe)

/-- `URLNormalizer._normalize_query`. -/
def normalize_query (cfg : URLNormalizer) (query : String) : String :=
  if query = "" then ""
  else
    let params := UrlLib.parse_qs query
    let params :=
      if cfg.remove_tracking then
        params.filter (fun kv => ¬ Frontier.py_lower kv.1 ∈ TRACKING_PARAMS)
      else params
    if params = [] then ""
    else
      let sorted_params :=
        if cfg.sort_params then
          UrlLib.sortBy (fun a b => UrlLib.strLt a.1 b.1) params
        else params
      let parts := (sorted_params.map (fun kv =>
        (UrlLib.sortBy UrlLib.strLt kv.2).map (fun v => (kv.1, v)))).flatten
      UrlLib.urlencode parts

def skip_patterns : List String :=
  ["javascript:", "mailto:", "tel:", "data:", "ftp:", "file:", "blob:"]

/-- Python `str.strip(".")`. -/
def stripDots (s : String) : String :=
  String.mk (((s.data.dropWhile (· = '.')).reverse.dropWhile (· = '.')).reverse)

/-- `if port:` truthiness (`None` and `0` are falsy). -/
def truthyPort : Option Nat → Bool
  | none => false
  | some n => n ≠ 0

/-- `URLNormalizer.normalize(url)` with `base_url = None` (the relative
resolution branch is never taken).  Returns `none` where the source returns
`None`: disallowed scheme, skip-pattern prefix, missing hostname, or any
exception inside the `try` block (the only raisers are `urlparse` on bad
brackets and the `port` property on an invalid port). -/
def normalize (cfg : URLNormalizer) (url : String) : Option String :=
  let url := UrlLib.unquote url
  match UrlLib.urlparse url with
  | none => none
  | some parsed =>
      if ¬ Frontier.py_lower parsed.scheme ∈ ALLOWED_SCHEMES then none
      else if skip_patterns.any
          (fun p => p.data.isPrefixOf (Frontier.py_lower url).data) then none
      else
        let scheme := Frontier.py_lower parsed.scheme
        match UrlLib.hostnameOf parsed.netloc.data with
        | none => none
        | some hostname0 =>
            let hostname := stripDots (Frontier.py_lower hostname0)
            match UrlLib.portOf parsed.netloc.data with
            | .error _ => none
            | .ok port0 =>
                let port :=
                  if (scheme = "http" ∧ port0 = some 80) ∨
                      (scheme = "https" ∧ port0 = some 443) then none
                  else port0
                let netloc :=
                  if truthyPort port then
                    hostname ++ ":" ++ UrlLib.natRepr (port.getD 0)
                  else hostname
                let netloc :=
                  match UrlLib.usernameOf parsed.netloc.data with
                  | some u =>
                      if u ≠ "" then
                        let ui :=
                          match UrlLib.passwordOf parsed.netloc.data with
                          | some pw => if pw ≠ "" then u ++ ":" ++ pw else u
                          | none => u
                        ui ++ "@" ++ netloc
                      else netloc
                  | none => netloc
                let path := if parsed.path = "" then "/" else parsed.path
                let path := normalize_path path
                let query := normalize_query cfg parsed.query
                let fragment := if cfg.remove_fragments then "" else parsed.fragment
                some (UrlLib.urlunparse scheme netloc path parsed.params
                  query fragment)

end Normalizer

/-! ## Theorems -/

namespace HashUtils

theorem spec_popcount_zero : spec_popcount 0 = 0 := by
  rw [spec_popcount]; simp

theorem spec_popcount_two_mul (m : Nat) : spec_popcount (2 * m) = spec_popcount m := by
  rcases Nat.eq_zero_or_pos m with hm | hm
  · subst hm; rfl
  · rw [spec_popcount]
    have h2 : 2 * m ≠ 0 := by positivity
    simp only [h2, dif_neg, not_false_iff]
    rw [Nat.mul_mod_right, Nat.mul_div_cancel_left _ (by norm_num : 0 < 2)]
    omega

theorem spec_popcount_two_mul_add_one (m : Nat) :
    spec_popcount (2 * m + 1) = spec_popcount m + 1 := by
  rw [spec_popcount]
  have h2 : 2 * m + 1 ≠ 0 := by omega
  simp only [h2, dif_neg, not_false_iff]
  rw [Nat.mul_add_mod, Nat.mul_add_div (by norm_num : 0 < 2)]
  norm_num
  omega

theorem land_mul_two_add (a b : Nat) (x y : Bool) :
    (2 * a + x.toNat) &&& (2 * b + y.toNat) = 2 * (a &&& b) + (x && y).toNat := by
  apply Nat.eq_of_testBit_eq
  intro i
  cases i with
  | zero =>
      simp only [Nat.testBit_and, Nat.testBit_zero]
      cases x <;> cases y <;> simp [Nat.add_mul_mod_self_left, Nat.mul_add_mod]
  | succ i =>
      have hx : (2 * a + x.toNat) / 2 = a := by cases x <;> simp <;> omega
      have hy : (2 * b + y.toNat) / 2 = b := by cases y <;> simp <;> omega
      have hz : (2 * (a &&& b) + (x && y).toNat) / 2 = a &&& b := by
        cases x <;> cases y <;> simp <;> omega
      rw [Nat.testBit_and]
      simp only [Nat.testBit_add_one]
      rw [hx, hy, hz, Nat.testBit_and]

/-- Clearing the lowest set bit removes exactly one from the popcount. -/
theorem spec_popcount_land_sub_one (x : Nat) (hx : x ≠ 0) :
    spec_popcount (x &&& (x - 1)) + 1 = spec_popcount x := by
  induction x using Nat.strong_induction_on with
  | _ x ih =>
    rcases Nat.even_or_odd x with ⟨m, hm⟩ | ⟨m, hm⟩
    · -- x = 2 * m with m ≠ 0
      have hm2 : x = 2 * m := by omega
      have hmpos : m ≠ 0 := by omega
      have hland : x &&& (x - 1) = 2 * (m &&& (m - 1)) := by
        have hstep : x &&& (x - 1) = (2 * m + (false : Bool).toNat) &&&
            (2 * (m - 1) + (true : Bool).toNat) := by
          rw [hm2]; congr 1 <;> simp <;> omega
        rw [hstep, land_mul_two_add]
        simp
      rw [hland, spec_popcount_two_mul, hm2, spec_popcount_two_mul]
      exact ih m (by omega) hmpos
    · -- x = 2 * m + 1
      have hland : x &&& (x - 1) = 2 * m := by
        have hstep : x &&& (x - 1) = (2 * m + (true : Bool).toNat) &&&
            (2 * m + (false : Bool).toNat) := by
          rw [hm]; congr 1 <;> simp
        rw [hstep, land_mul_two_add]
        simp [Nat.and_self]
      rw [hland, spec_popcount_two_mul, hm, spec_popcount_two_mul_add_one]

/-- The source's bit-clearing loop computes the specification's popcount. -/
theorem popLoop_eq_spec_popcount (x : Nat) : popLoop x = spec_popcount x := by
  induction x using Nat.strong_induction_on with
  | _ x ih =>
    rw [popLoop]
    by_cases hx : x = 0
    · simp [hx, spec_popcount_zero]
    · simp only [hx, dif_neg, not_false_iff]
      have hlt : x &&& (x - 1) < x :=
        Nat.lt_of_le_of_lt Nat.and_le_right (Nat.sub_lt (Nat.pos_of_ne_zero hx) one_pos)
      rw [ih _ hlt, Nat.add_comm, spec_popcount_land_sub_one x hx]

/-- popcount of an `n`-bit number is at most `n`. -/
theorem spec_popcount_le (n : Nat) : ∀ x : Nat, x < 2 ^ n → spec_popcount x ≤ n := by
  induction n with
  | zero =>
      intro x hx
      interval_cases x
      simp [spec_popcount_zero]
  | succ n ih =>
      intro x hx
      by_cases hx0 : x = 0
      · simp [hx0, spec_popcount_zero]
      · rw [spec_popcount]
        simp only [hx0, dif_neg, not_false_iff]
        have hdiv : x / 2 < 2 ^ n := by
          have : x < 2 ^ n * 2 := by rw [pow_succ] at hx; omega
          omega
        have := ih (x / 2) hdiv
        omega

theorem hamming_distance_self (h : Nat) : hamming_distance h h = 0 := by
  unfold hamming_distance
  rw [Nat.xor_self, popLoop]
  simp

theorem hamming_distance_comm (h1 h2 : Nat) :
    hamming_distance h1 h2 = hamming_distance h2 h1 := by
  unfold hamming_distance
  rw [Nat.xor_comm]

theorem hamming_distance_le_64 (h1 h2 : Nat) (hb1 : h1 < 2 ^ 64) (hb2 : h2 < 2 ^ 64) :
    hamming_distance h1 h2 ≤ 64 := by
  unfold hamming_distance
  rw [popLoop_eq_spec_popcount]
  exact spec_popcount_le 64 _ (Nat.xor_lt_two_pow hb1 hb2)

end HashUtils

namespace RateLimiter

/-- `record_request` never touches the pacing delay. -/
theorem record_request_current_delay (s : DomainState) (rt : ℚ) (success : Bool)
    (now : ℚ) : (s.record_request rt success now).current_delay = s.current_delay := by
  unfold DomainState.record_request
  split <;> rfl

/-- `_adjust_delay` keeps the delay inside `[min_delay, max_delay]` whenever it
starts there (and the configuration is sane). -/
theorem adjust_delay_bounds (L : AdaptiveRateLimiter) (s : DomainState) (status : Int)
    (h0 : 0 ≤ L.min_delay) (hmm : L.min_delay ≤ L.max_delay)
    (hlo : L.min_delay ≤ s.current_delay) (hhi : s.current_delay ≤ L.max_delay) :
    L.min_delay ≤ (adjust_delay L s status).current_delay ∧
      (adjust_delay L s status).current_delay ≤ L.max_delay := by
  have hc0 : 0 ≤ s.current_delay := le_trans h0 hlo
  unfold adjust_delay
  split_ifs with h1 h2 h3 h4
  · exact ⟨le_min (by linarith) hmm, min_le_right _ _⟩
  · exact ⟨le_min (by linarith) hmm, min_le_right _ _⟩
  · exact ⟨le_min (by linarith) hmm, min_le_right _ _⟩
  · exact ⟨le_max_right _ _, max_le (by linarith) hmm⟩
  · exact ⟨hlo, hhi⟩

end RateLimiter

namespace Heapq

variable {α : Type} [Inhabited α]

theorem siftdownLoop_length (key : α → Nat) (l : List α) (s p : Nat) (n : α) :
    (siftdownLoop key l s p n).length = l.length := by
  induction l, s, p, n using siftdownLoop.induct key
  case case1 heap startpos pos newitem hsp pp par hlt ih =>
    rw [siftdownLoop, dif_pos hsp]
    simp only [if_pos hlt]
    rw [ih, List.length_set]
  case case2 heap startpos pos newitem hsp pp par hlt =>
    rw [siftdownLoop, dif_pos hsp]
    simp only [if_neg hlt]
    exact List.length_set ..
  case case3 heap startpos pos newitem hsp =>
    rw [siftdownLoop, dif_neg hsp]
    exact List.length_set ..

theorem siftupLoop_length (key : α → Nat) (l : List α) (p : Nat) :
    (siftupLoop key l p).1.length = l.length := by
  induction l, p using siftupLoop.induct key
  case case1 heap pos h c ih =>
    rw [siftupLoop, dif_pos h]
    simp only []
    rw [ih, List.length_set]
  case case2 heap pos h =>
    rw [siftupLoop, dif_neg h]

theorem getD_set_self (l : List α) {i : Nat} (a : α) (h : i < l.length) :
    (l.set i a).getD i default = a := by
  simp [List.getD, List.getElem?_set_self, h]

theorem getD_set_ne (l : List α) {i j : Nat} (a : α) (h : i ≠ j) :
    (l.set i a).getD j default = l.getD j default := by
  simp [List.getD, List.getElem?_set_ne h]

theorem getD_append_left (l l2 : List α) {i : Nat} (h : i < l.length) :
    (l ++ l2).getD i default = l.getD i default := by
  simp [List.getD, List.getElem?_append_left h]

theorem getD_concat_length (l : List α) (x : α) :
    (l ++ [x]).getD l.length default = x := by
  simp [List.getD, List.getElem?_concat_length]

theorem getD_mem (l : List α) {i : Nat} (h : i < l.length) : l.getD i default ∈ l := by
  rw [List.getD_eq_getElem l default h]
  exact List.getElem_mem h

theorem mem_set (l : List α) {i : Nat} {a b : α} (h : b ∈ l.set i a) : b ∈ l ∨ b = a :=
  List.mem_or_eq_of_mem_set h

theorem mem_set_self (l : List α) {i : Nat} (a : α) (h : i < l.length) :
    a ∈ l.set i a := by
  have hgd := getD_set_self l a h
  conv_rhs => rw [← hgd]
  have hplen : i < (l.set i a).length := by
    rw [List.length_set]; omega
  exact getD_mem (l.set i a) hplen

theorem siftdownLoop_subset (key : α → Nat) (l : List α) (s p : Nat) (n : α) :
    p < l.length → ∀ a ∈ siftdownLoop key l s p n, a ∈ l ∨ a = n := by
  induction l, s, p, n using siftdownLoop.induct key
  case case1 heap startpos pos newitem hsp pp par hlt ih =>
    intro hp a ha
    rw [siftdownLoop, dif_pos hsp] at ha
    simp only [if_pos hlt] at ha
    have hpp : pp < heap.length := by omega
    have ih2 := ih (by simpa using hpp) a ha
    rcases ih2 with hmem | heq
    · rcases mem_set _ hmem with hmem2 | heq2
      · exact Or.inl hmem2
      · subst heq2
        exact Or.inl (getD_mem heap hpp)
    · exact Or.inr heq
  case case2 heap startpos pos newitem hsp pp par hlt =>
    intro hp a ha
    rw [siftdownLoop, dif_pos hsp] at ha
    simp only [if_neg hlt] at ha
    exact mem_set _ ha
  case case3 heap startpos pos newitem hsp =>
    intro hp a ha
    rw [siftdownLoop, dif_neg hsp] at ha
    exact mem_set _ ha

theorem SDInv_step (key : α → Nat) (l : List α) (p : Nat) (n : α)
    (inv : SDInv key l p n) (hp0 : 0 < p)
    (hlt : key n < key (l.getD ((p - 1) / 2) default)) :
    SDInv key (l.set p (l.getD ((p - 1) / 2) default)) ((p - 1) / 2) n := by
  set pp := (p - 1) / 2 with hpp
  have hppp : pp < p := by omega
  have hpplen : pp < l.length := lt_trans hppp inv.hpos
  set par := l.getD pp default with hpar
  have hsetp : (l.set p par).getD p default = par := getD_set_self l par inv.hpos
  have hsetne : ∀ j, j ≠ p → (l.set p par).getD j default = l.getD j default := by
    intro j hj
    exact getD_set_ne l par (Ne.symm hj)
  refine ⟨?_, ?_, ?_, ?_⟩
  · simpa using hpplen
  · intro i hi0 hilen hine
    rw [List.length_set] at hilen
    by_cases hip : i = p
    · subst hip
      rw [hsetp, hsetne pp (by omega)]
    · rw [hsetne i hip]
      by_cases hpar2 : (i - 1) / 2 = p
      · rw [hpar2, hsetp]
        exact inv.hgrand i hi0 hilen hpar2 hp0
      · rw [hsetne _ hpar2]
        exact inv.hedges i hi0 hilen hip
  · intro i hi0 hilen hpari
    rw [List.length_set] at hilen
    by_cases hip : i = p
    · subst hip
      rw [hsetp]
      exact le_of_lt hlt
    · rw [hsetne i hip]
      have := inv.hedges i hi0 hilen hip
      rw [hpari] at this
      exact le_trans (le_of_lt hlt) this
  · intro i hi0 hilen hpari hpp0
    rw [List.length_set] at hilen
    have hppplen : (pp - 1) / 2 < l.length := by omega
    rw [hsetne ((pp - 1) / 2) (by omega)]
    by_cases hip : i = p
    · subst hip
      rw [hsetp]
      exact inv.hedges pp hpp0 hpplen (by omega)
    · rw [hsetne i hip]
      have h1 := inv.hedges pp hpp0 hpplen (by omega)
      have h2 := inv.hedges i hi0 hilen hip
      rw [hpari] at h2
      exact le_trans h1 h2

theorem SDInv_final (key : α → Nat) (l : List α) (p : Nat) (n : α)
    (inv : SDInv key l p n)
    (hge : 0 < p → key (l.getD ((p - 1) / 2) default) ≤ key n) :
    IsHeap key (l.set p n) := by
  have hsetp : (l.set p n).getD p default = n := getD_set_self l n inv.hpos
  have hsetne : ∀ j, j ≠ p → (l.set p n).getD j default = l.getD j default := by
    intro j hj
    exact getD_set_ne l n (Ne.symm hj)
  intro i hi0 hilen
  rw [List.length_set] at hilen
  by_cases hip : i = p
  · subst hip
    rw [hsetp, hsetne _ (by omega)]
    exact hge hi0
  · rw [hsetne i hip]
    by_cases hpar2 : (i - 1) / 2 = p
    · rw [hpar2, hsetp]
      exact inv.hchild i hi0 hilen hpar2
    · rw [hsetne _ hpar2]
      exact inv.hedges i hi0 hilen hip

theorem siftdownLoop_isHeap (key : α → Nat) (p : Nat) :
    ∀ (l : List α) (n : α), SDInv key l p n →
      IsHeap key (siftdownLoop key l 0 p n) := by
  induction p using Nat.strong_induction_on with
  | _ p ih =>
    intro l n inv
    rw [siftdownLoop]
    by_cases hsp : 0 < p
    · rw [dif_pos hsp]
      by_cases hlt : key n < key (l.getD ((p - 1) / 2) default)
      · simp only [if_pos hlt]
        exact ih ((p - 1) / 2) (by omega) _ n (SDInv_step key l p n inv hsp hlt)
      · simp only [if_neg hlt]
        exact SDInv_final key l p n inv (fun _ => le_of_not_lt hlt)
    · rw [dif_neg hsp]
      exact SDInv_final key l p n inv (fun h => absurd h hsp)

theorem heappush_isHeap (key : α → Nat) (l : List α) (x : α) (hl : IsHeap key l) :
    IsHeap key (heappush key l x) := by
  unfold heappush siftdown
  simp only [List.length_append, List.length_singleton]
  have hget : (l ++ [x]).get? (l.length + 1 - 1) = some x := by
    simp [List.getElem?_concat_length]
  rw [hget]
  apply siftdownLoop_isHeap
  refine ⟨by simp, ?_, ?_, ?_⟩
  · intro i hi0 hilen hine
    simp only [List.length_append, List.length_singleton] at hilen
    have hilt : i < l.length := by omega
    rw [getD_append_left l [x] hilt, getD_append_left l [x] (by omega)]
    exact hl i hi0 hilt
  · intro i hi0 hilen hpari
    simp only [List.length_append, List.length_singleton] at hilen
    omega
  · intro i hi0 hilen hpari hp0
    simp only [List.length_append, List.length_singleton] at hilen
    omega

theorem childSel_ge (key : α → Nat) (l : List α) (p : Nat) :
    2 * p + 1 ≤ childSel key l p := by
  unfold childSel
  split <;> omega

theorem childSel_lt_length (key : α → Nat) (l : List α) (p : Nat)
    (h : 2 * p + 1 < l.length) : childSel key l p < l.length := by
  unfold childSel
  split <;> omega

theorem childSel_parent (key : α → Nat) (l : List α) (p : Nat) :
    (childSel key l p - 1) / 2 = p := by
  unfold childSel
  split <;> omega

theorem childSel_min_left (key : α → Nat) (l : List α) (p : Nat) :
    key (l.getD (childSel key l p) default) ≤ key (l.getD (2 * p + 1) default) := by
  unfold childSel
  split
  case isTrue h => exact le_of_not_lt h.2
  case isFalse h => exact le_refl _

theorem childSel_min_right (key : α → Nat) (l : List α) (p : Nat)
    (h : 2 * p + 2 < l.length) :
    key (l.getD (childSel key l p) default) ≤ key (l.getD (2 * p + 2) default) := by
  unfold childSel
  split
  case isTrue hc => exact le_refl _
  case isFalse hc =>
    rcases not_and_or.mp hc with hlen | hlt
    · exact absurd h hlen
    · exact le_of_lt (not_not.mp hlt)

theorem SUInv_step (key : α → Nat) (l : List α) (p : Nat)
    (inv : SUInv key l p) (h : 2 * p + 1 < l.length) :
    SUInv key (l.set p (l.getD (childSel key l p) default)) (childSel key l p) := by
  set c := childSel key l p with hc
  have hcge : 2 * p + 1 ≤ c := childSel_ge key l p
  have hclen : c < l.length := childSel_lt_length key l p h
  have hcpar : (c - 1) / 2 = p := childSel_parent key l p
  set v := l.getD c default with hv
  have hsetp : (l.set p v).getD p default = v := getD_set_self l v inv.hpos
  have hsetne : ∀ j, j ≠ p → (l.set p v).getD j default = l.getD j default := by
    intro j hj
    exact getD_set_ne l v (Ne.symm hj)
  refine ⟨by simpa using hclen, ?_, ?_⟩
  · intro i hi0 hilen hine hipar
    rw [List.length_set] at hilen
    by_cases hip : i = p
    · subst hip
      have hi0' : 0 < i := hi0
      rw [hsetp, hsetne ((i - 1) / 2) (by omega)]
      exact inv.hpar c (by omega) hclen hcpar hi0
    · rw [hsetne i hip]
      by_cases hpar2 : (i - 1) / 2 = p
      · -- i is the sibling of c (or c itself, excluded)
        rw [hpar2, hsetp]
        have hi12 : i = 2 * p + 1 ∨ i = 2 * p + 2 := by omega
        rcases hi12 with h1 | h2
        · subst h1
          exact childSel_min_left key l p
        · subst h2
          exact childSel_min_right key l p (by omega)
      · rw [hsetne _ hpar2]
        exact inv.hedges i hi0 hilen hip hpar2
  · intro i hi0 hilen hipar hc0
    rw [List.length_set] at hilen
    rw [hcpar, hsetp]
    have hinep : i ≠ p := by omega
    rw [hsetne i hinep]
    have hres := inv.hedges i hi0 hilen hinep (by omega)
    rw [hipar] at hres
    exact hres

theorem SUInv_leaf_SDInv (key : α → Nat) (l : List α) (p : Nat) (n : α)
    (inv : SUInv key l p) (hleaf : ¬ 2 * p + 1 < l.length) :
    SDInv key l p n := by
  refine ⟨inv.hpos, ?_, ?_, ?_⟩
  · intro i hi0 hilen hine
    apply inv.hedges i hi0 hilen hine
    omega
  · intro i hi0 hilen hipar
    omega
  · intro i hi0 hilen hipar hp0
    omega

theorem siftupLoop_SUInv (key : α → Nat) (l : List α) (p : Nat) :
    SUInv key l p →
      SUInv key (siftupLoop key l p).1 (siftupLoop key l p).2 ∧
        ¬ 2 * (siftupLoop key l p).2 + 1 < (siftupLoop key l p).1.length := by
  induction l, p using siftupLoop.induct key
  case case1 heap pos h c ih =>
    intro inv
    rw [siftupLoop, dif_pos h]
    simp only []
    exact ih (SUInv_step key heap pos inv h)
  case case2 heap pos h =>
    intro inv
    rw [siftupLoop, dif_neg h]
    exact ⟨inv, h⟩

theorem siftup_isHeap (key : α → Nat) (l : List α) (hinv : SUInv key l 0) :
    IsHeap key (siftup key l 0) := by
  unfold siftup
  have h0 : l.get? 0 = some (l.getD 0 default) := by
    cases l with
    | nil => exact absurd hinv.hpos (by simp)
    | cons a t => rfl
  rw [h0]
  simp only []
  have hmain := siftupLoop_SUInv key l 0 hinv
  exact siftdownLoop_isHeap key _ _ _
    (SUInv_leaf_SDInv key _ _ _ hmain.1 hmain.2)

theorem getLast?_eq_append (l : List α) (x : α) (h : l.getLast? = some x) :
    l = l.dropLast ++ [x] := by
  have hne : l ≠ [] := by rintro rfl; simp at h
  rw [List.getLast?_eq_getLast l hne] at h
  have h2 := List.dropLast_append_getLast hne
  rw [Option.some_inj] at h
  rw [h] at h2
  exact h2.symm

theorem heappop_isHeap (key : α → Nat) (l : List α) (hl : IsHeap key l)
    (x : α) (l' : List α) (h : heappop key l = some (x, l')) : IsHeap key l' := by
  unfold heappop at h
  cases hgl : l.getLast? with
  | none => rw [hgl] at h; exact absurd h (by simp)
  | some lastelt =>
    rw [hgl] at h
    cases hdl : l.dropLast with
    | nil =>
        rw [hdl] at h
        simp only [Option.some_inj, Prod.mk.injEq] at h
        obtain ⟨hx, hl'⟩ := h
        subst hl'
        intro i hi0 hilen
        simp at hilen
    | cons r0 rtail =>
        rw [hdl] at h
        simp only [Option.some_inj, Prod.mk.injEq] at h
        obtain ⟨hx, hl'⟩ := h
        subst hl'
        apply siftup_isHeap
        have hdec : l = (r0 :: rtail) ++ [lastelt] := by
          rw [← hdl]
          exact getLast?_eq_append l lastelt hgl
        have hgetD : ∀ j, 0 < j → j < (lastelt :: rtail).length →
            (lastelt :: rtail).getD j default = l.getD j default := by
          intro j hj0 hjlen
          simp only [List.length_cons] at hjlen
          obtain ⟨j', rfl⟩ : ∃ j', j = j' + 1 := ⟨j - 1, by omega⟩
          rw [List.getD_cons_succ]
          rw [hdec, getD_append_left (r0 :: rtail) [lastelt] (by simp; omega)]
          rw [List.getD_cons_succ]
        have hlen2 : l.length = rtail.length + 2 := by
          rw [hdec]; simp
        refine ⟨by simp, ?_, ?_⟩
        · intro i hi0 hilen hine hipar
          simp only [List.length_cons] at hilen
          rw [hgetD i hi0 (by simp; omega), hgetD ((i - 1) / 2) (by omega) (by simp; omega)]
          exact hl i hi0 (by omega)
        · intro i hi0 hilen hipar h0
          omega

theorem heappop_root (key : α → Nat) (l : List α) (x : α) (l' : List α)
    (h : heappop key l = some (x, l')) : x = l.getD 0 default := by
  unfold heappop at h
  cases hgl : l.getLast? with
  | none => rw [hgl] at h; exact absurd h (by simp)
  | some lastelt =>
    rw [hgl] at h
    have hdec := getLast?_eq_append l lastelt hgl
    cases hdl : l.dropLast with
    | nil =>
        rw [hdl] at h
        simp only [Option.some_inj, Prod.mk.injEq] at h
        rw [hdec, hdl]
        simp [h.1]
    | cons r0 rtail =>
        rw [hdl] at h
        simp only [Option.some_inj, Prod.mk.injEq] at h
        rw [hdec, hdl]
        rw [getD_append_left (r0 :: rtail) [lastelt] (by simp)]
        simp [h.1]

theorem IsHeap_root_le (key : α → Nat) (l : List α) (hl : IsHeap key l) :
    ∀ i, i < l.length → key (l.getD 0 default) ≤ key (l.getD i default) := by
  intro i
  induction i using Nat.strong_induction_on with
  | _ i ih =>
    intro hilen
    by_cases hi0 : i = 0
    · subst hi0; exact le_refl _
    · exact le_trans (ih ((i - 1) / 2) (by omega) (by omega))
        (hl i (by omega) hilen)

theorem IsHeap_root_min (key : α → Nat) (l : List α) (hl : IsHeap key l) :
    ∀ a ∈ l, key (l.getD 0 default) ≤ key a := by
  intro a ha
  obtain ⟨i, hi, hget⟩ := List.getElem_of_mem ha
  have := IsHeap_root_le key l hl i hi
  rw [List.getD_eq_getElem l default hi] at this
  rw [← hget]
  exact this

theorem siftdownLoop_mem (key : α → Nat) (l : List α) (s p : Nat) (n : α) :
    p < l.length → n ∈ siftdownLoop key l s p n := by
  induction l, s, p, n using siftdownLoop.induct key
  case case1 heap startpos pos newitem hsp pp par hlt ih =>
    intro hp
    rw [siftdownLoop, dif_pos hsp]
    simp only [if_pos hlt]
    exact ih (by rw [List.length_set]; omega)
  case case2 heap startpos pos newitem hsp pp par hlt =>
    intro hp
    rw [siftdownLoop, dif_pos hsp]
    simp only [if_neg hlt]
    exact mem_set_self heap newitem hp
  case case3 heap startpos pos newitem hsp =>
    intro hp
    rw [siftdownLoop, dif_neg hsp]
    exact mem_set_self heap newitem hp

theorem heappush_mem (key : α → Nat) (l : List α) (x : α) :
    x ∈ heappush key l x := by
  unfold heappush siftdown
  simp only [List.length_append, List.length_singleton]
  have hget : (l ++ [x]).get? (l.length + 1 - 1) = some x := by
    simp [List.getElem?_concat_length]
  rw [hget]
  exact siftdownLoop_mem key _ _ _ _ (by simp)

theorem heappush_subset (key : α → Nat) (l : List α) (x : α) :
    ∀ a ∈ heappush key l x, a ∈ l ∨ a = x := by
  unfold heappush siftdown
  simp only [List.length_append, List.length_singleton]
  have hget : (l ++ [x]).get? (l.length + 1 - 1) = some x := by
    simp [List.getElem?_concat_length]
  rw [hget]
  intro a ha
  rcases siftdownLoop_subset key _ _ _ _ (by simp) a ha with hmem | heq
  · rcases List.mem_append.mp hmem with hm | hm
    · exact Or.inl hm
    · simp at hm
      exact Or.inr hm
  · exact Or.inr heq

theorem heappush_length (key : α → Nat) (l : List α) (x : α) :
    (heappush key l x).length = l.length + 1 := by
  unfold heappush siftdown
  simp only [List.length_append, List.length_singleton]
  have hget : (l ++ [x]).get? (l.length + 1 - 1) = some x := by
    simp [List.getElem?_concat_length]
  rw [hget, siftdownLoop_length]
  simp

theorem siftupLoop_subset (key : α → Nat) (l : List α) (p : Nat) :
    ∀ a ∈ (siftupLoop key l p).1, a ∈ l := by
  induction l, p using siftupLoop.induct key
  case case1 heap pos h c ih =>
    intro a ha
    rw [siftupLoop, dif_pos h] at ha
    simp only [] at ha
    have hclen : childSel key heap pos < heap.length := childSel_lt_length key heap pos h
    rcases mem_set _ (ih a ha) with hm | he
    · exact hm
    · rw [he]
      exact getD_mem heap hclen
  case case2 heap pos h =>
    intro a ha
    rw [siftupLoop, dif_neg h] at ha
    exact ha

theorem siftupLoop_pos_lt (key : α → Nat) (l : List α) (p : Nat) :
    p < l.length → (siftupLoop key l p).2 < (siftupLoop key l p).1.length := by
  induction l, p using siftupLoop.induct key
  case case1 heap pos h c ih =>
    intro hp
    rw [siftupLoop, dif_pos h]
    simp only []
    exact ih (by simp; exact childSel_lt_length key heap pos h)
  case case2 heap pos h =>
    intro hp
    rw [siftupLoop, dif_neg h]
    exact hp

theorem siftup_subset (key : α → Nat) (l : List α) :
    ∀ a ∈ siftup key l 0, a ∈ l := by
  unfold siftup
  cases hget : l.get? 0 with
  | none => intro a ha; exact ha
  | some newitem =>
    intro a ha
    simp only [] at ha
    have hlen : 0 < l.length := by
      cases l with
      | nil => simp at hget
      | cons b t => simp
    have hploclt := siftupLoop_pos_lt key l 0 hlen
    rcases siftdownLoop_subset key _ _ _ _ hploclt a ha with hm | he
    · exact siftupLoop_subset key l 0 a hm
    · rw [he]
      have : newitem = l.getD 0 default := by
        rw [List.getD, hget]
        rfl
      rw [this]
      exact getD_mem l hlen

theorem siftup_length (key : α → Nat) (l : List α) :
    (siftup key l 0).length = l.length := by
  unfold siftup
  cases hget : l.get? 0 with
  | none => rfl
  | some newitem =>
    simp only []
    rw [siftdownLoop_length, siftupLoop_length]

theorem heappop_subset (key : α → Nat) (l : List α) (x : α) (l' : List α)
    (h : heappop key l = some (x, l')) : x ∈ l ∧ ∀ a ∈ l', a ∈ l := by
  unfold heappop at h
  cases hgl : l.getLast? with
  | none => rw [hgl] at h; exact absurd h (by simp)
  | some lastelt =>
    rw [hgl] at h
    have hdec := getLast?_eq_append l lastelt hgl
    cases hdl : l.dropLast with
    | nil =>
        rw [hdl] at h
        simp only [Option.some_inj, Prod.mk.injEq] at h
        rw [hdec, hdl]
        constructor
        · simp [h.1]
        · intro a ha
          rw [← h.2] at ha
          simp at ha
    | cons r0 rtail =>
        rw [hdl] at h
        simp only [Option.some_inj, Prod.mk.injEq] at h
        constructor
        · rw [hdec, hdl, ← h.1]
          simp
        · intro a ha
          rw [← h.2] at ha
          have ha2 := siftup_subset key _ a ha
          rw [hdec, hdl]
          rcases List.mem_cons.mp ha2 with he | hm
          · simp [he]
          · simp [hm]

theorem heappop_length (key : α → Nat) (l : List α) (x : α) (l' : List α)
    (h : heappop key l = some (x, l')) : l.length = l'.length + 1 := by
  unfold heappop at h
  cases hgl : l.getLast? with
  | none => rw [hgl] at h; exact absurd h (by simp)
  | some lastelt =>
    rw [hgl] at h
    have hdec := getLast?_eq_append l lastelt hgl
    cases hdl : l.dropLast with
    | nil =>
        rw [hdl] at h
        simp only [Option.some_inj, Prod.mk.injEq] at h
        rw [hdec, hdl, ← h.2]
        simp
    | cons r0 rtail =>
        rw [hdl] at h
        simp only [Option.some_inj, Prod.mk.injEq] at h
        rw [hdec, hdl, ← h.2]
        rw [siftup_length]
        simp

theorem heappop_none_iff (key : α → Nat) (l : List α) :
    heappop key l = none ↔ l = [] := by
  constructor
  · intro h
    by_contra hne
    unfold heappop at h
    rw [List.getLast?_eq_getLast l hne] at h
    cases hdl : l.dropLast <;> rw [hdl] at h <;> simp at h
  · rintro rfl
    rfl

end Heapq

namespace Frontier

theorem mk_init_inv (max_depth max_urls : Nat) :
    FrontierInv (URLFrontier.mk_init max_depth max_urls) := by
  refine ⟨?_, ?_, ?_⟩
  · intro i hi0 hilen
    simp [URLFrontier.mk_init] at hilen
  · intro e he
    simp [URLFrontier.mk_init] at he
  · simp [URLFrontier.mk_init]

theorem add_inv (f : URLFrontier) (url : String) (depth : Nat)
    (priority : URLPriority) (parent : String) (md : List (String × String))
    (now : Nat) (inv : FrontierInv f) :
    FrontierInv (f.add url depth priority parent md now).2 := by
  unfold URLFrontier.add
  simp only []
  split_ifs with h1 h2 h3
  · exact ⟨inv.hheap, inv.hseen, inv.hsize⟩
  · exact inv
  · exact inv
  · refine ⟨?_, ?_, ?_⟩
    · exact Heapq.heappush_isHeap _ _ _ inv.hheap
    · intro e he
      rcases Heapq.heappush_subset _ _ _ e he with hm | he2
      · exact Finset.mem_insert_of_mem (inv.hseen e hm)
      · subst he2
        exact Finset.mem_insert_self _ _
    · have hle : f.queue.length + 1 ≤ f.max_urls := by omega
      simpa [Heapq.heappush_length] using hle

theorem get_inv (f : URLFrontier) (inv : FrontierInv f) :
    FrontierInv (f.get).2 := by
  unfold URLFrontier.get
  cases hpop : Heapq.heappop URLEntry.priority f.queue with
  | none => exact inv
  | some p =>
      obtain ⟨e, q⟩ := p
      refine ⟨?_, ?_, ?_⟩
      · exact Heapq.heappop_isHeap _ _ inv.hheap _ _ hpop
      · intro e2 he2
        exact inv.hseen e2 ((Heapq.heappop_subset _ _ _ _ hpop).2 e2 he2)
      · have := Heapq.heappop_length _ _ _ _ hpop
        have := inv.hsize
        simp only []
        omega

theorem mark_crawled_inv (f : URLFrontier) (url : String) (inv : FrontierInv f) :
    FrontierInv (f.mark_crawled url) :=
  ⟨inv.hheap, inv.hseen, inv.hsize⟩

theorem mark_failed_inv (f : URLFrontier) (url : String) (max_retries : Nat)
    (inv : FrontierInv f) : FrontierInv (f.mark_failed url max_retries).2 :=
  ⟨inv.hheap, inv.hseen, inv.hsize⟩

/-- Every reachable frontier state satisfies the invariants. -/
theorem reachable_inv (f : URLFrontier) (hr : Reachable f) : FrontierInv f := by
  induction hr with
  | init md mu => exact mk_init_inv md mu
  | add f url depth priority parent md now _ ih =>
      exact add_inv f url depth priority parent md now ih
  | get f _ ih => exact get_inv f ih
  | mark_crawled f url _ ih => exact mark_crawled_inv f url ih
  | mark_failed f url mr _ ih => exact mark_failed_inv f url mr ih

end Frontier

namespace Frontier

theorem add_max_urls (f : URLFrontier) (url : String) (depth : Nat)
    (priority : URLPriority) (parent : String) (md : List (String × String))
    (now : Nat) : (f.add url depth priority parent md now).2.max_urls = f.max_urls := by
  unfold URLFrontier.add
  simp only []
  split_ifs <;> rfl

end Frontier

/-- C6: `frontier.add` returns true iff the URL is newly admitted; it returns
false exactly when the hash is already seen, the depth exceeds `max_depth`,
or the queue is at capacity; on admission the hash enters the seen set and
the entry enters the heap; every queued URL is in the seen set and the queue
never exceeds `max_urls`. -/
theorem C6_add_admission (f : Frontier.URLFrontier) (hr : Frontier.Reachable f)
    (url : String) (depth : Nat) (priority : Frontier.URLPriority)
    (parent : String) (md : List (String × String)) (now : Nat) :
    ((f.add url depth priority parent md now).1 = true ↔
      (Frontier.url_hash url ∉ f.seen_urls ∧ depth ≤ f.max_depth ∧
        f.queue.length < f.max_urls)) ∧
    ((f.add url depth priority parent md now).1 = true →
      Frontier.url_hash url ∈ (f.add url depth priority parent md now).2.seen_urls ∧
      ({ priority := priority.value, depth := depth, url := url,
         parent_url := parent, discovered_at := now, metadata := md } :
        Frontier.URLEntry) ∈ (f.add url depth priority parent md now).2.queue) ∧
    (∀ e ∈ (f.add url depth priority parent md now).2.queue,
      Frontier.url_hash e.url ∈ (f.add url depth priority parent md now).2.seen_urls) ∧
    (f.add url depth priority parent md now).2.queue.length ≤ f.max_urls := by
  have inv := Frontier.reachable_inv f hr
  have inv2 := Frontier.add_inv f url depth priority parent md now inv
  refine ⟨?_, ?_, inv2.hseen, ?_⟩
  · unfold Frontier.URLFrontier.add
    simp only []
    by_cases h1 : Frontier.url_hash url ∈ f.seen_urls
    · rw [if_pos h1]
      simp only [Bool.false_eq_true, false_iff]
      intro hc
      exact hc.1 h1
    · rw [if_neg h1]
      by_cases h2 : depth > f.max_depth
      · rw [if_pos h2]
        simp only [Bool.false_eq_true, false_iff]
        intro hc
        omega
      · rw [if_neg h2]
        by_cases h3 : f.queue.length ≥ f.max_urls
        · rw [if_pos h3]
          simp only [Bool.false_eq_true, false_iff]
          intro hc
          omega
        · rw [if_neg h3]
          simp only [true_iff]
          exact ⟨h1, by omega, by omega⟩
  · intro htrue
    unfold Frontier.URLFrontier.add at htrue ⊢
    simp only [] at htrue ⊢
    by_cases h1 : Frontier.url_hash url ∈ f.seen_urls
    · rw [if_pos h1] at htrue
      simp at htrue
    · rw [if_neg h1] at htrue ⊢
      by_cases h2 : depth > f.max_depth
      · rw [if_pos h2] at htrue
        simp at htrue
      · rw [if_neg h2] at htrue ⊢
        by_cases h3 : f.queue.length ≥ f.max_urls
        · rw [if_pos h3] at htrue
          simp at htrue
        · rw [if_neg h3]
          constructor
          · exact Finset.mem_insert_self _ _
          · exact Heapq.heappush_mem _ _ _
  · have := inv2.hsize
    rw [Frontier.add_max_urls] at this
    exact this

/-- Witness for C6 at a concrete reachable frontier. -/
theorem C6_add_admission_witness :
    (((Frontier.URLFrontier.mk_init 3 10).add "http://a.com/" 0 .NORMAL "" [] 0).1 = true ↔
      (Frontier.url_hash "http://a.com/" ∉ (Frontier.URLFrontier.mk_init 3 10).seen_urls ∧
        0 ≤ (Frontier.URLFrontier.mk_init 3 10).max_depth ∧
        (Frontier.URLFrontier.mk_init 3 10).queue.length <
          (Frontier.URLFrontier.mk_init 3 10).max_urls)) ∧
    (((Frontier.URLFrontier.mk_init 3 10).add "http://a.com/" 0 .NORMAL "" [] 0).1 = true →
      Frontier.url_hash "http://a.com/" ∈
        ((Frontier.URLFrontier.mk_init 3 10).add "http://a.com/" 0 .NORMAL "" [] 0).2.seen_urls ∧
      ({ priority := Frontier.URLPriority.value .NORMAL, depth := 0, url := "http://a.com/",
         parent_url := "", discovered_at := 0, metadata := [] } : Frontier.URLEntry) ∈
        ((Frontier.URLFrontier.mk_init 3 10).add "http://a.com/" 0 .NORMAL "" [] 0).2.queue) ∧
    (∀ e ∈ ((Frontier.URLFrontier.mk_init 3 10).add "http://a.com/" 0 .NORMAL "" [] 0).2.queue,
      Frontier.url_hash e.url ∈
        ((Frontier.URLFrontier.mk_init 3 10).add "http://a.com/" 0 .NORMAL "" [] 0).2.seen_urls) ∧
    ((Frontier.URLFrontier.mk_init 3 10).add "http://a.com/" 0 .NORMAL "" [] 0).2.queue.length ≤
      (Frontier.URLFrontier.mk_init 3 10).max_urls :=
  C6_add_admission (Frontier.URLFrontier.mk_init 3 10) (Frontier.Reachable.init 3 10)
    "http://a.com/" 0 .NORMAL "" [] 0

/-- C10: a depth or capacity rejection of an unseen URL leaves the frontier
state entirely unchanged (in particular the seen set and the
duplicates-skipped counter); only a seen-hash rejection increments
`duplicates_skipped`; and a later admissible `add` of the same URL succeeds. -/
theorem C10_rejection_stateless (f f2 g : Frontier.URLFrontier) (url : String)
    (depth depth2 : Nat) (priority prio2 prio3 : Frontier.URLPriority)
    (parent parent2 parent3 : String) (md md2 md3 : List (String × String))
    (now now2 now3 : Nat)
    (hnot : Frontier.url_hash url ∉ f.seen_urls)
    (hrej : depth > f.max_depth ∨ f.queue.length ≥ f.max_urls)
    (hseen : Frontier.url_hash url ∈ g.seen_urls)
    (hnot2 : Frontier.url_hash url ∉ f2.seen_urls)
    (hdepth2 : depth2 ≤ f2.max_depth)
    (hroom2 : f2.queue.length < f2.max_urls) :
    (f.add url depth priority parent md now).1 = false ∧
    (f.add url depth priority parent md now).2 = f ∧
    (g.add url depth priority parent3 md3 now3).1 = false ∧
    (g.add url depth priority parent3 md3 now3).2 =
      { g with total_duplicates_skipped := g.total_duplicates_skipped + 1 } ∧
    (f2.add url depth2 prio2 parent2 md2 now2).1 = true := by
  refine ⟨?_, ?_, ?_, ?_, ?_⟩
  · unfold Frontier.URLFrontier.add
    simp only []
    rw [if_neg hnot]
    rcases hrej with hd | hq
    · rw [if_pos hd]
    · by_cases h2 : depth > f.max_depth
      · rw [if_pos h2]
      · rw [if_neg h2, if_pos hq]
  · unfold Frontier.URLFrontier.add
    simp only []
    rw [if_neg hnot]
    rcases hrej with hd | hq
    · rw [if_pos hd]
    · by_cases h2 : depth > f.max_depth
      · rw [if_pos h2]
      · rw [if_neg h2, if_pos hq]
  · unfold Frontier.URLFrontier.add
    simp only []
    rw [if_pos hseen]
  · unfold Frontier.URLFrontier.add
    simp only []
    rw [if_pos hseen]
  · unfold Frontier.URLFrontier.add
    simp only []
    rw [if_neg hnot2, if_neg (by omega : ¬ depth2 > f2.max_depth),
      if_neg (by omega : ¬ f2.queue.length ≥ f2.max_urls)]

/-- Witness for C10 at concrete frontier states. -/
theorem C10_rejection_stateless_witness :
    ((Frontier.URLFrontier.mk_init 0 10).add "http://a.com/" 1 .NORMAL "" [] 0).1 = false ∧
    ((Frontier.URLFrontier.mk_init 0 10).add "http://a.com/" 1 .NORMAL "" [] 0).2 =
      Frontier.URLFrontier.mk_init 0 10 ∧
    ((((Frontier.URLFrontier.mk_init 3 10).add "http://a.com/" 0 .NORMAL "" [] 0).2).add
        "http://a.com/" 1 .NORMAL "x" [] 7).1 = false ∧
    ((((Frontier.URLFrontier.mk_init 3 10).add "http://a.com/" 0 .NORMAL "" [] 0).2).add
        "http://a.com/" 1 .NORMAL "x" [] 7).2 =
      { ((Frontier.URLFrontier.mk_init 3 10).add "http://a.com/" 0 .NORMAL "" [] 0).2 with
        total_duplicates_skipped :=
          ((Frontier.URLFrontier.mk_init 3 10).add "http://a.com/" 0
            .NORMAL "" [] 0).2.total_duplicates_skipped + 1 } ∧
    ((Frontier.URLFrontier.mk_init 3 10).add "http://a.com/" 0 .NORMAL "" [] 0).1 = true :=
  C10_rejection_stateless (Frontier.URLFrontier.mk_init 0 10)
    (Frontier.URLFrontier.mk_init 3 10)
    ((Frontier.URLFrontier.mk_init 3 10).add "http://a.com/" 0 .NORMAL "" [] 0).2
    "http://a.com/" 1 0 .NORMAL .NORMAL .NORMAL "" "" "x" [] [] [] 0 0 7
    (by simp [Frontier.URLFrontier.mk_init])
    (by left; simp [Frontier.URLFrontier.mk_init])
    (by simp [Frontier.URLFrontier.add, Frontier.URLFrontier.mk_init])
    (by simp [Frontier.URLFrontier.mk_init])
    (by simp [Frontier.URLFrontier.mk_init])
    (by simp [Frontier.URLFrontier.mk_init])

namespace Frontier

theorem add_crawled (f : URLFrontier) (url : String) (depth : Nat)
    (priority : URLPriority) (parent : String) (md : List (String × String))
    (now : Nat) : (f.add url depth priority parent md now).2.crawled_urls =
      f.crawled_urls := by
  unfold URLFrontier.add
  simp only []
  by_cases h1 : url_hash url ∈ f.seen_urls
  · rw [if_pos h1]
  · rw [if_neg h1]
    by_cases h2 : depth > f.max_depth
    · rw [if_pos h2]
    · rw [if_neg h2]
      by_cases h3 : f.queue.length ≥ f.max_urls
      · rw [if_pos h3]
      · rw [if_neg h3]

theorem add_failed (f : URLFrontier) (url : String) (depth : Nat)
    (priority : URLPriority) (parent : String) (md : List (String × String))
    (now : Nat) : (f.add url depth priority parent md now).2.failed_urls =
      f.failed_urls := by
  unfold URLFrontier.add
  simp only []
  by_cases h1 : url_hash url ∈ f.seen_urls
  · rw [if_pos h1]
  · rw [if_neg h1]
    by_cases h2 : depth > f.max_depth
    · rw [if_pos h2]
    · rw [if_neg h2]
      by_cases h3 : f.queue.length ≥ f.max_urls
      · rw [if_pos h3]
      · rw [if_neg h3]

/-- A duplicate `add` (hash already seen) leaves the queue unchanged. -/
theorem add_seen_queue (f : URLFrontier) (url : String) (depth : Nat)
    (priority : URLPriority) (parent : String) (md : List (String × String))
    (now : Nat) (hseen : url_hash url ∈ f.seen_urls) :
    (f.add url depth priority parent md now).2.queue = f.queue := by
  unfold URLFrontier.add
  simp only []
  rw [if_pos hseen]

end Frontier

namespace Engine

theorem process_links_crawled (internal external : List String)
    (fe : Bool) (parent : String) (depth now : Nat) :
    ∀ f : Frontier.URLFrontier,
      (process_links f internal external fe parent depth now).crawled_urls =
        f.crawled_urls := by
  unfold process_links
  simp only []
  have hfold : ∀ (ls : List String) (p : Frontier.URLPriority)
      (g : Frontier.URLFrontier),
      (ls.foldl (fun g l => (g.add l depth p parent [] now).2) g).crawled_urls =
        g.crawled_urls := by
    intro ls p
    induction ls with
    | nil => intro g; rfl
    | cons hd tl ih =>
        intro g
        rw [List.foldl_cons, ih, Frontier.add_crawled]
  intro f
  by_cases hfe : fe
  · rw [if_pos hfe, hfold, hfold]
  · rw [if_neg hfe, hfold]

theorem process_links_failed (internal external : List String)
    (fe : Bool) (parent : String) (depth now : Nat) :
    ∀ f : Frontier.URLFrontier,
      (process_links f internal external fe parent depth now).failed_urls =
        f.failed_urls := by
  unfold process_links
  simp only []
  have hfold : ∀ (ls : List String) (p : Frontier.URLPriority)
      (g : Frontier.URLFrontier),
      (ls.foldl (fun g l => (g.add l depth p parent [] now).2) g).failed_urls =
        g.failed_urls := by
    intro ls p
    induction ls with
    | nil => intro g; rfl
    | cons hd tl ih =>
        intro g
        rw [List.foldl_cons, ih, Frontier.add_failed]
  intro f
  by_cases hfe : fe
  · rw [if_pos hfe, hfold, hfold]
  · rw [if_neg hfe, hfold]

end Engine

/-- C9: For 64-bit hashes, `similarity(h1,h2) = 1 - popcount(h1 XOR h2)/64`;
`similarity(h,h) = 1`; `similarity` is symmetric; and for hashes below `2^64`
the similarity is nonnegative. -/
theorem C9_simhash_similarity (h h1 h2 : Nat)
    (hb1 : h1 < 2 ^ 64) (hb2 : h2 < 2 ^ 64) :
    HashUtils.SimHash.similarity ⟨64⟩ h1 h2 =
      1 - (HashUtils.spec_popcount (h1 ^^^ h2) : ℚ) / 64 ∧
    HashUtils.SimHash.similarity ⟨64⟩ h h = 1 ∧
    HashUtils.SimHash.similarity ⟨64⟩ h1 h2 = HashUtils.SimHash.similarity ⟨64⟩ h2 h1 ∧
    0 ≤ HashUtils.SimHash.similarity ⟨64⟩ h1 h2 := by
  unfold HashUtils.SimHash.similarity
  refine ⟨?_, ?_, ?_, ?_⟩
  · rw [HashUtils.hamming_distance, HashUtils.popLoop_eq_spec_popcount]
    norm_num
  · rw [HashUtils.hamming_distance_self]
    norm_num
  · rw [HashUtils.hamming_distance_comm]
  · have hle : HashUtils.hamming_distance h1 h2 ≤ 64 :=
      HashUtils.hamming_distance_le_64 h1 h2 hb1 hb2
    have hq : (HashUtils.hamming_distance h1 h2 : ℚ) / 64 ≤ 1 := by
      rw [div_le_one (by norm_num : (0:ℚ) < 64)]
      exact_mod_cast hle
    simp only [Nat.cast_ofNat]
    linarith

/-- Witness for C9 at `h = 5`, `h1 = 3`, `h2 = 12`. -/
theorem C9_simhash_similarity_witness :
    HashUtils.SimHash.similarity ⟨64⟩ 3 12 =
      1 - (HashUtils.spec_popcount (3 ^^^ 12) : ℚ) / 64 ∧
    HashUtils.SimHash.similarity ⟨64⟩ 5 5 = 1 ∧
    HashUtils.SimHash.similarity ⟨64⟩ 3 12 = HashUtils.SimHash.similarity ⟨64⟩ 12 3 ∧
    0 ≤ HashUtils.SimHash.similarity ⟨64⟩ 3 12 :=
  C9_simhash_similarity 5 3 12 (by norm_num) (by norm_num)

/-- C4 counterexample: with the default configuration
(`requests_per_second = 2.0`), a fresh domain's `current_delay` is the
dataclass constant `1.0`, not `1/requests_per_second = 0.5`; and
`set_crawl_delay` can push `current_delay` above `max_delay`. -/
theorem C4_counterexample :
    ((RateLimiter.init).domains "example.com").current_delay ≠ 1 / (2 : ℚ) ∧
    ((RateLimiter.set_crawl_delay (RateLimiter.init) "example.com" 100).domains
        "example.com").current_delay > (RateLimiter.init).max_delay := by
  constructor
  · norm_num [RateLimiter.init]
  · norm_num [RateLimiter.init, RateLimiter.set_crawl_delay]

/-- C4 (amended): a fresh domain's `current_delay` is the constant `1.0`
(independently of `requests_per_second`); a `record` call (adaptive or not)
keeps `current_delay` inside `[min_delay, max_delay]` whenever it starts
there and `0 ≤ min_delay ≤ max_delay`; and `set_crawl_delay` sets it to
`max(delay, min_delay)` — bounded below by `min_delay` but not above. -/
theorem C4_delay_init_and_bounds (rps mind maxd jit : ℚ) (adp : Bool) (d2 : String)
    (L : RateLimiter.AdaptiveRateLimiter) (domain : String) (rt now dly : ℚ)
    (success : Bool) (status : Int)
    (h0 : 0 ≤ L.min_delay) (hmm : L.min_delay ≤ L.max_delay)
    (hlo : L.min_delay ≤ (L.domains domain).current_delay)
    (hhi : (L.domains domain).current_delay ≤ L.max_delay) :
    ((RateLimiter.init rps mind maxd adp jit).domains d2).current_delay = 1 ∧
    (L.min_delay ≤
        ((RateLimiter.record L domain rt success status now).domains domain).current_delay ∧
      ((RateLimiter.record L domain rt success status now).domains domain).current_delay ≤
        L.max_delay) ∧
    ((RateLimiter.set_crawl_delay L domain dly).domains domain).current_delay =
      max dly L.min_delay := by
  refine ⟨rfl, ?_, by simp [RateLimiter.set_crawl_delay]⟩
  unfold RateLimiter.record
  simp only
  by_cases had : L.adaptive
  · simp only [had, if_pos, if_true]
    have hcd := RateLimiter.record_request_current_delay (L.domains domain) rt success now
    have := RateLimiter.adjust_delay_bounds L
      ((L.domains domain).record_request rt success now) status h0 hmm
      (by rw [hcd]; exact hlo) (by rw [hcd]; exact hhi)
    simpa using this
  · simp only [had, if_false, if_neg, Bool.false_eq_true]
    have hcd := RateLimiter.record_request_current_delay (L.domains domain) rt success now
    simp [hcd]
    exact ⟨hlo, hhi⟩

/-- Witness for C4 (amended) at a concrete configuration and state. -/
theorem C4_delay_init_and_bounds_witness :
    ((RateLimiter.init 2 (1/2) 10 true (3/10)).domains "a").current_delay = 1 ∧
    ((RateLimiter.init).min_delay ≤
        ((RateLimiter.record (RateLimiter.init) "a" 1 true 429 0).domains
          "a").current_delay ∧
      ((RateLimiter.record (RateLimiter.init) "a" 1 true 429 0).domains
          "a").current_delay ≤ (RateLimiter.init).max_delay) ∧
    ((RateLimiter.set_crawl_delay (RateLimiter.init) "a" 4).domains "a").current_delay =
      max 4 (RateLimiter.init).min_delay :=
  C4_delay_init_and_bounds 2 (1/2) 10 (3/10) true "a" (RateLimiter.init) "a" 1 0 4
    true 429 (by norm_num [RateLimiter.init]) (by norm_num [RateLimiter.init])
    (by norm_num [RateLimiter.init]) (by norm_num [RateLimiter.init])

/-- C5: with the adaptive flag enabled, recording a response with status 429
multiplies the domain's delay by 3, capped at `max_delay`, regardless of the
`success` flag and response time. -/
theorem C5_429_exact_delay (L : RateLimiter.AdaptiveRateLimiter) (domain : String)
    (rt now : ℚ) (success : Bool) (had : L.adaptive = true) :
    ((RateLimiter.record L domain rt success 429 now).domains domain).current_delay =
      min ((L.domains domain).current_delay * 3) L.max_delay := by
  unfold RateLimiter.record
  simp only [had, if_true]
  have hcd := RateLimiter.record_request_current_delay (L.domains domain) rt success now
  simp [RateLimiter.adjust_delay, hcd]

/-- Witness for C5 at the default configuration. -/
theorem C5_429_exact_delay_witness :
    ((RateLimiter.record (RateLimiter.init) "a" 1 false 429 0).domains "a").current_delay =
      min (((RateLimiter.init).domains "a").current_delay * 3)
        (RateLimiter.init).max_delay :=
  C5_429_exact_delay (RateLimiter.init) "a" 1 0 false rfl

/-- C3 counterexample: frontier ordering ignores depth and discovery time,
and equal-priority ties are not broken by insertion order.  First run: after
enqueuing `a` (priority NORMAL, depth 5, t=0) then `b` (NORMAL, depth 1,
t=1), `get()` returns `a` although `b`\'s tuple `(2, 1, 1)` is
lexicographically smaller than `a`\'s `(2, 5, 0)`.  Second run: after
enqueuing `z` (CRITICAL) then `a`, `b`, `c` (all NORMAL, depth 0, t=5 —
identical tuples, inserted in that order), popping `z` and popping again
yields `b`, not the earlier-inserted `a`, which is still enqueued. -/
theorem C3_counterexample :
    (((((Frontier.URLFrontier.mk_init 10 100).add "http://x.com/a" 5 .NORMAL "" [] 0).2.add
        "http://x.com/b" 1 .NORMAL "" [] 1).2.get).1 =
      some { priority := 2, depth := 5, url := "http://x.com/a" } ∧
    ({ priority := 2, depth := 1, url := "http://x.com/b", discovered_at := 1 } :
        Frontier.URLEntry) ∈ (((Frontier.URLFrontier.mk_init 10 100).add "http://x.com/a" 5 .NORMAL "" [] 0).2.add
        "http://x.com/b" 1 .NORMAL "" [] 1).2.queue) ∧
    (((((((((Frontier.URLFrontier.mk_init 3 100).add "http://x.com/z" 0 .CRITICAL "" [] 5).2.add
        "http://x.com/a" 0 .NORMAL "" [] 5).2.add
        "http://x.com/b" 0 .NORMAL "" [] 5).2.add
        "http://x.com/c" 0 .NORMAL "" [] 5).2.get).2).get).1 = some { priority := 2, depth := 0, url := "http://x.com/b", discovered_at := 5 } ∧
    ({ priority := 2, depth := 0, url := "http://x.com/a", discovered_at := 5 } : Frontier.URLEntry) ∈ (((((((Frontier.URLFrontier.mk_init 3 100).add "http://x.com/z" 0 .CRITICAL "" [] 5).2.add
        "http://x.com/a" 0 .NORMAL "" [] 5).2.add
        "http://x.com/b" 0 .NORMAL "" [] 5).2.add
        "http://x.com/c" 0 .NORMAL "" [] 5).2.get).2).queue) := by
  have ha1 : (Frontier.URLFrontier.mk_init 10 100).add "http://x.com/a" 5 .NORMAL "" [] 0 =
      (true, { max_depth := 10, max_urls := 100,
               queue := [{ priority := 2, depth := 5, url := "http://x.com/a" }],
               seen_urls := {"http://x.com/a"},
               total_added := 1 }) := by
    unfold Frontier.URLFrontier.add Frontier.URLFrontier.mk_init
    simp only []
    rw [if_neg (by decide : ¬ (Frontier.url_hash "http://x.com/a" ∈ (∅ : Finset String)))]
    rw [if_neg (by decide : ¬ ((5:Nat) > 10))]
    rw [if_neg (by decide : ¬ (List.length ([] : List Frontier.URLEntry) ≥ 100))]
    simp [Heapq.heappush, Heapq.siftdown, Heapq.siftdownLoop, Frontier.URLPriority.value,
      (by decide : Frontier.url_hash "http://x.com/a" = "http://x.com/a")]
  have ha2 : ({ max_depth := 10, max_urls := 100,
                 queue := [{ priority := 2, depth := 5, url := "http://x.com/a" }],
                 seen_urls := {"http://x.com/a"},
                 total_added := 1 } : Frontier.URLFrontier).add
        "http://x.com/b" 1 .NORMAL "" [] 1 =
      (true, { max_depth := 10, max_urls := 100,
               queue := [{ priority := 2, depth := 5, url := "http://x.com/a" },
                         { priority := 2, depth := 1, url := "http://x.com/b",
                           discovered_at := 1 }],
               seen_urls := {"http://x.com/b", "http://x.com/a"},
               total_added := 2 }) := by
    unfold Frontier.URLFrontier.add
    simp only []
    rw [if_neg (by decide : ¬ (Frontier.url_hash "http://x.com/b" ∈
      ({"http://x.com/a"} : Finset String)))]
    rw [if_neg (by decide : ¬ ((1:Nat) > 10))]
    rw [if_neg (by decide :
      ¬ (List.length [({ priority := 2, depth := 5, url := "http://x.com/a" } :
        Frontier.URLEntry)] ≥ 100))]
    simp [Heapq.heappush, Heapq.siftdown, Heapq.siftdownLoop, Frontier.URLPriority.value,
      (by decide : Frontier.url_hash "http://x.com/b" = "http://x.com/b")]
  have ha3 : ({ max_depth := 10, max_urls := 100,
                 queue := [{ priority := 2, depth := 5, url := "http://x.com/a" },
                           { priority := 2, depth := 1, url := "http://x.com/b",
                             discovered_at := 1 }],
                 seen_urls := {"http://x.com/b", "http://x.com/a"},
                 total_added := 2 } : Frontier.URLFrontier).get =
      (some { priority := 2, depth := 5, url := "http://x.com/a" },
       { max_depth := 10, max_urls := 100,
         queue := [{ priority := 2, depth := 1, url := "http://x.com/b",
                     discovered_at := 1 }],
         seen_urls := {"http://x.com/b", "http://x.com/a"},
         total_added := 2 }) := by
    unfold Frontier.URLFrontier.get
    simp [Heapq.heappop, Heapq.siftup, Heapq.siftupLoop, Heapq.childSel,
      Heapq.siftdownLoop]
  have hb1 : (Frontier.URLFrontier.mk_init 3 100).add "http://x.com/z" 0 .CRITICAL "" [] 5 =
      (true, { max_depth := 3, max_urls := 100,
                 queue := [{ priority := 0, depth := 0, url := "http://x.com/z", discovered_at := 5 }],
                 seen_urls := {"http://x.com/z"},
                 total_added := 1 }) := by
    unfold Frontier.URLFrontier.add Frontier.URLFrontier.mk_init
    simp only []
    rw [if_neg (by decide : ¬ (Frontier.url_hash "http://x.com/z" ∈ (∅ : Finset String)))]
    rw [if_neg (by decide : ¬ ((0:Nat) > 3))]
    rw [if_neg (by decide :
      ¬ (List.length ([] : List Frontier.URLEntry) ≥ 100))]
    simp [Heapq.heappush, Heapq.siftdown, Heapq.siftdownLoop, Frontier.URLPriority.value,
      (by decide : Frontier.url_hash "http://x.com/z" = "http://x.com/z")]
  have hb2 : ({ max_depth := 3, max_urls := 100,
                 queue := [{ priority := 0, depth := 0, url := "http://x.com/z", discovered_at := 5 }],
                 seen_urls := {"http://x.com/z"},
                 total_added := 1 } : Frontier.URLFrontier).add
        "http://x.com/a" 0 .NORMAL "" [] 5 =
      (true, { max_depth := 3, max_urls := 100,
                 queue := [{ priority := 0, depth := 0, url := "http://x.com/z", discovered_at := 5 },
                   { priority := 2, depth := 0, url := "http://x.com/a", discovered_at := 5 }],
                 seen_urls := {"http://x.com/a", "http://x.com/z"},
                 total_added := 2 }) := by
    unfold Frontier.URLFrontier.add
    simp only []
    rw [if_neg (by decide : ¬ (Frontier.url_hash "http://x.com/a" ∈
      ({"http://x.com/z"} : Finset String)))]
    rw [if_neg (by decide : ¬ ((0:Nat) > 3))]
    rw [if_neg (by decide :
      ¬ (List.length ([{ priority := 0, depth := 0, url := "http://x.com/z", discovered_at := 5 }] : List Frontier.URLEntry) ≥ 100))]
    simp [Heapq.heappush, Heapq.siftdown, Heapq.siftdownLoop, Frontier.URLPriority.value,
      (by decide : Frontier.url_hash "http://x.com/a" = "http://x.com/a")]
  have hb3 : ({ max_depth := 3, max_urls := 100,
                 queue := [{ priority := 0, depth := 0, url := "http://x.com/z", discovered_at := 5 },
                   { priority := 2, depth := 0, url := "http://x.com/a", discovered_at := 5 }],
                 seen_urls := {"http://x.com/a", "http://x.com/z"},
                 total_added := 2 } : Frontier.URLFrontier).add
        "http://x.com/b" 0 .NORMAL "" [] 5 =
      (true, { max_depth := 3, max_urls := 100,
                 queue := [{ priority := 0, depth := 0, url := "http://x.com/z", discovered_at := 5 },
                   { priority := 2, depth := 0, url := "http://x.com/a", discovered_at := 5 },
                   { priority := 2, depth := 0, url := "http://x.com/b", discovered_at := 5 }],
                 seen_urls := {"http://x.com/b", "http://x.com/a", "http://x.com/z"},
                 total_added := 3 }) := by
    unfold Frontier.URLFrontier.add
    simp only []
    rw [if_neg (by decide : ¬ (Frontier.url_hash "http://x.com/b" ∈
      ({"http://x.com/a", "http://x.com/z"} : Finset String)))]
    rw [if_neg (by decide : ¬ ((0:Nat) > 3))]
    rw [if_neg (by decide :
      ¬ (List.length ([{ priority := 0, depth := 0, url := "http://x.com/z", discovered_at := 5 }, { priority := 2, depth := 0, url := "http://x.com/a", discovered_at := 5 }] : List Frontier.URLEntry) ≥ 100))]
    simp [Heapq.heappush, Heapq.siftdown, Heapq.siftdownLoop, Frontier.URLPriority.value,
      (by decide : Frontier.url_hash "http://x.com/b" = "http://x.com/b")]
  have hb4 : ({ max_depth := 3, max_urls := 100,
                 queue := [{ priority := 0, depth := 0, url := "http://x.com/z", discovered_at := 5 },
                   { priority := 2, depth := 0, url := "http://x.com/a", discovered_at := 5 },
                   { priority := 2, depth := 0, url := "http://x.com/b", discovered_at := 5 }],
                 seen_urls := {"http://x.com/b", "http://x.com/a", "http://x.com/z"},
                 total_added := 3 } : Frontier.URLFrontier).add
        "http://x.com/c" 0 .NORMAL "" [] 5 =
      (true, { max_depth := 3, max_urls := 100,
                 queue := [{ priority := 0, depth := 0, url := "http://x.com/z", discovered_at := 5 },
                   { priority := 2, depth := 0, url := "http://x.com/a", discovered_at := 5 },
                   { priority := 2, depth := 0, url := "http://x.com/b", discovered_at := 5 },
                   { priority := 2, depth := 0, url := "http://x.com/c", discovered_at := 5 }],
                 seen_urls := {"http://x.com/c", "http://x.com/b", "http://x.com/a", "http://x.com/z"},
                 total_added := 4 }) := by
    unfold Frontier.URLFrontier.add
    simp only []
    rw [if_neg (by decide : ¬ (Frontier.url_hash "http://x.com/c" ∈
      ({"http://x.com/b", "http://x.com/a", "http://x.com/z"} : Finset String)))]
    rw [if_neg (by decide : ¬ ((0:Nat) > 3))]
    rw [if_neg (by decide :
      ¬ (List.length ([{ priority := 0, depth := 0, url := "http://x.com/z", discovered_at := 5 }, { priority := 2, depth := 0, url := "http://x.com/a", discovered_at := 5 }, { priority := 2, depth := 0, url := "http://x.com/b", discovered_at := 5 }] : List Frontier.URLEntry) ≥ 100))]
    simp [Heapq.heappush, Heapq.siftdown, Heapq.siftdownLoop, Frontier.URLPriority.value,
      (by decide : Frontier.url_hash "http://x.com/c" = "http://x.com/c")]
  have hb5 : ({ max_depth := 3, max_urls := 100,
                 queue := [{ priority := 0, depth := 0, url := "http://x.com/z", discovered_at := 5 },
                   { priority := 2, depth := 0, url := "http://x.com/a", discovered_at := 5 },
                   { priority := 2, depth := 0, url := "http://x.com/b", discovered_at := 5 },
                   { priority := 2, depth := 0, url := "http://x.com/c", discovered_at := 5 }],
                 seen_urls := {"http://x.com/c", "http://x.com/b", "http://x.com/a", "http://x.com/z"},
                 total_added := 4 } : Frontier.URLFrontier).get =
      (some { priority := 0, depth := 0, url := "http://x.com/z", discovered_at := 5 },
       { max_depth := 3, max_urls := 100,
                 queue := [{ priority := 2, depth := 0, url := "http://x.com/b", discovered_at := 5 },
                   { priority := 2, depth := 0, url := "http://x.com/a", discovered_at := 5 },
                   { priority := 2, depth := 0, url := "http://x.com/c", discovered_at := 5 }],
                 seen_urls := {"http://x.com/c", "http://x.com/b", "http://x.com/a", "http://x.com/z"},
                 total_added := 4 }) := by
    unfold Frontier.URLFrontier.get
    simp [Heapq.heappop, Heapq.siftup, Heapq.siftupLoop, Heapq.childSel,
      Heapq.siftdownLoop]
  have hb6 : ({ max_depth := 3, max_urls := 100,
                 queue := [{ priority := 2, depth := 0, url := "http://x.com/b", discovered_at := 5 },
                   { priority := 2, depth := 0, url := "http://x.com/a", discovered_at := 5 },
                   { priority := 2, depth := 0, url := "http://x.com/c", discovered_at := 5 }],
                 seen_urls := {"http://x.com/c", "http://x.com/b", "http://x.com/a", "http://x.com/z"},
                 total_added := 4 } : Frontier.URLFrontier).get =
      (some { priority := 2, depth := 0, url := "http://x.com/b", discovered_at := 5 },
       { max_depth := 3, max_urls := 100,
                 queue := [{ priority := 2, depth := 0, url := "http://x.com/a", discovered_at := 5 },
                   { priority := 2, depth := 0, url := "http://x.com/c", discovered_at := 5 }],
                 seen_urls := {"http://x.com/c", "http://x.com/b", "http://x.com/a", "http://x.com/z"},
                 total_added := 4 }) := by
    unfold Frontier.URLFrontier.get
    simp [Heapq.heappop, Heapq.siftup, Heapq.siftupLoop, Heapq.childSel,
      Heapq.siftdownLoop]
  rw [ha1, ha2, ha3, hb1, hb2, hb3, hb4, hb5, hb6]
  refine ⟨⟨rfl, by decide⟩, rfl, by decide⟩

/-- C3 (amended): frontier pops are ordered on `priority` alone, lowest
first — `URLEntry` marks `depth`, `discovered_at` and every other field
`compare=False` — and `get()` returns an enqueued entry whose priority value
is minimal among all enqueued entries; equal-priority ties follow binary
heap order, not insertion order. -/
theorem C3_pop_priority_min (f : Frontier.URLFrontier) (hr : Frontier.Reachable f)
    (hne : f.queue ≠ []) :
    ∃ e f2, f.get = (some e, f2) ∧ e ∈ f.queue ∧
      ∀ e2 ∈ f.queue, e.priority ≤ e2.priority := by
  have inv := Frontier.reachable_inv f hr
  cases hpop : Heapq.heappop Frontier.URLEntry.priority f.queue with
  | none => exact absurd ((Heapq.heappop_none_iff _ _).mp hpop) hne
  | some p =>
      obtain ⟨e, q⟩ := p
      refine ⟨e, { f with queue := q }, ?_, ?_, ?_⟩
      · unfold Frontier.URLFrontier.get
        rw [hpop]
      · exact (Heapq.heappop_subset _ _ _ _ hpop).1
      · intro e2 he2
        have hroot := Heapq.heappop_root _ _ _ _ hpop
        rw [hroot]
        exact Heapq.IsHeap_root_min _ _ inv.hheap e2 he2

/-- Witness for C3 (amended) at a concrete reachable frontier. -/
theorem C3_pop_priority_min_witness :
    ((Frontier.URLFrontier.mk_init 3 10).add "http://a.com/x" 1 .NORMAL "" [] 0).2.queue ≠ [] ∧
    (∃ e f2,
      ((Frontier.URLFrontier.mk_init 3 10).add "http://a.com/x" 1 .NORMAL "" [] 0).2.get =
        (some e, f2) ∧
      e ∈ ((Frontier.URLFrontier.mk_init 3 10).add "http://a.com/x" 1 .NORMAL "" [] 0).2.queue ∧
      ∀ e2 ∈ ((Frontier.URLFrontier.mk_init 3 10).add "http://a.com/x" 1 .NORMAL "" [] 0).2.queue,
        e.priority ≤ e2.priority) := by
  have h1 : (Frontier.URLFrontier.mk_init 3 10).add "http://a.com/x" 1 .NORMAL "" [] 0 =
      (true, { max_depth := 3, max_urls := 10,
               queue := [{ priority := 2, depth := 1, url := "http://a.com/x" }],
               seen_urls := {"http://a.com/x"},
               total_added := 1 }) := by
    unfold Frontier.URLFrontier.add Frontier.URLFrontier.mk_init
    simp only []
    rw [if_neg (by decide : ¬ (Frontier.url_hash "http://a.com/x" ∈ (∅ : Finset String)))]
    rw [if_neg (by decide : ¬ ((1:Nat) > 3))]
    rw [if_neg (by decide : ¬ (List.length ([] : List Frontier.URLEntry) ≥ 10))]
    simp [Heapq.heappush, Heapq.siftdown, Heapq.siftdownLoop, Frontier.URLPriority.value,
      (by decide : Frontier.url_hash "http://a.com/x" = "http://a.com/x")]
  have hne : ((Frontier.URLFrontier.mk_init 3 10).add "http://a.com/x" 1 .NORMAL "" [] 0).2.queue ≠ [] := by
    rw [h1]
    simp
  exact ⟨hne, C3_pop_priority_min _
    (Frontier.Reachable.add (Frontier.URLFrontier.mk_init 3 10) "http://a.com/x" 1
      .NORMAL "" [] 0 (Frontier.Reachable.init 3 10)) hne⟩

/-- C1: the retry re-enqueue can never happen.  A seed URL is admitted,
popped by a worker, and its handler raises: `mark_failed` returns true
(1 failure < max_retries = 3), but the retry `frontier.add` at `LOW`
priority returns false — the URL\'s hash entered the seen set at admission
and is never removed, so the add is rejected as a duplicate
(`duplicates_skipped` becomes 1) and the queue stays empty. -/
theorem C1_retry_add_rejected :
    (((((Frontier.URLFrontier.mk_init 3 1000).add "http://a.com/" 0 .CRITICAL "" [] 0).2).get).2.mark_failed "http://a.com/" 3).1 = true ∧
    ((((((Frontier.URLFrontier.mk_init 3 1000).add "http://a.com/" 0 .CRITICAL "" [] 0).2).get).2.mark_failed "http://a.com/" 3).2.add "http://a.com/" 0 .LOW "" [] 1).1 = false ∧
    ((((((Frontier.URLFrontier.mk_init 3 1000).add "http://a.com/" 0 .CRITICAL "" [] 0).2).get).2.mark_failed "http://a.com/" 3).2.add
        "http://a.com/" 0 .LOW "" [] 1).2.queue = [] ∧
    ((((((Frontier.URLFrontier.mk_init 3 1000).add "http://a.com/" 0 .CRITICAL "" [] 0).2).get).2.mark_failed "http://a.com/" 3).2.add
        "http://a.com/" 0 .LOW "" [] 1).2.total_duplicates_skipped = 1 := by
  have hc1 : (Frontier.URLFrontier.mk_init 3 1000).add "http://a.com/" 0 .CRITICAL "" [] 0 =
      (true, { max_depth := 3, max_urls := 1000,
               queue := [{ priority := 0, depth := 0, url := "http://a.com/" }],
               seen_urls := {"http://a.com/"},
               total_added := 1 }) := by
    unfold Frontier.URLFrontier.add Frontier.URLFrontier.mk_init
    simp only []
    rw [if_neg (by decide : ¬ (Frontier.url_hash "http://a.com/" ∈ (∅ : Finset String)))]
    rw [if_neg (by decide : ¬ ((0:Nat) > 3))]
    rw [if_neg (by decide : ¬ (List.length ([] : List Frontier.URLEntry) ≥ 1000))]
    simp [Heapq.heappush, Heapq.siftdown, Heapq.siftdownLoop, Frontier.URLPriority.value,
      (by decide : Frontier.url_hash "http://a.com/" = "http://a.com/")]
  have hc2 : ({ max_depth := 3, max_urls := 1000,
                queue := [{ priority := 0, depth := 0, url := "http://a.com/" }],
                seen_urls := {"http://a.com/"},
                total_added := 1 } : Frontier.URLFrontier).get =
      (some { priority := 0, depth := 0, url := "http://a.com/" },
       { max_depth := 3, max_urls := 1000,
         queue := [],
         seen_urls := {"http://a.com/"},
         total_added := 1 }) := by
    unfold Frontier.URLFrontier.get
    simp [Heapq.heappop, Heapq.siftup, Heapq.siftupLoop, Heapq.childSel,
      Heapq.siftdownLoop]
  rw [hc1, hc2]
  refine ⟨by decide, by decide, by decide, by decide⟩

/-- C2 counterexample: a URL whose handler returns `None` (non-success
fetch) receives none of the three dispositions — it is not marked crawled,
`mark_failed` is never called (failure count stays 0), and nothing is
re-enqueued; only `pages_failed` increments. -/
theorem C2_counterexample :
    (Engine.worker_handle
        ⟨((((Frontier.URLFrontier.mk_init 3 1000).add "http://a.com/" 0 .CRITICAL "" [] 0).2).get).2, false, 0, 0⟩
        { priority := 0, depth := 0, url := "http://a.com/" } .nullResult 1).frontier.crawled_urls = ∅ ∧
    (Engine.worker_handle
        ⟨((((Frontier.URLFrontier.mk_init 3 1000).add "http://a.com/" 0 .CRITICAL "" [] 0).2).get).2, false, 0, 0⟩
        { priority := 0, depth := 0, url := "http://a.com/" } .nullResult 1).frontier.failed_urls
      (Frontier.url_hash "http://a.com/") = 0 ∧
    (Engine.worker_handle
        ⟨((((Frontier.URLFrontier.mk_init 3 1000).add "http://a.com/" 0 .CRITICAL "" [] 0).2).get).2, false, 0, 0⟩
        { priority := 0, depth := 0, url := "http://a.com/" } .nullResult 1).frontier.queue = [] ∧
    (Engine.worker_handle
        ⟨((((Frontier.URLFrontier.mk_init 3 1000).add "http://a.com/" 0 .CRITICAL "" [] 0).2).get).2, false, 0, 0⟩
        { priority := 0, depth := 0, url := "http://a.com/" } .nullResult 1).pages_failed = 1 := by
  have hc1 : (Frontier.URLFrontier.mk_init 3 1000).add "http://a.com/" 0 .CRITICAL "" [] 0 =
      (true, { max_depth := 3, max_urls := 1000,
               queue := [{ priority := 0, depth := 0, url := "http://a.com/" }],
               seen_urls := {"http://a.com/"},
               total_added := 1 }) := by
    unfold Frontier.URLFrontier.add Frontier.URLFrontier.mk_init
    simp only []
    rw [if_neg (by decide : ¬ (Frontier.url_hash "http://a.com/" ∈ (∅ : Finset String)))]
    rw [if_neg (by decide : ¬ ((0:Nat) > 3))]
    rw [if_neg (by decide : ¬ (List.length ([] : List Frontier.URLEntry) ≥ 1000))]
    simp [Heapq.heappush, Heapq.siftdown, Heapq.siftdownLoop, Frontier.URLPriority.value,
      (by decide : Frontier.url_hash "http://a.com/" = "http://a.com/")]
  have hc2 : ({ max_depth := 3, max_urls := 1000,
                queue := [{ priority := 0, depth := 0, url := "http://a.com/" }],
                seen_urls := {"http://a.com/"},
                total_added := 1 } : Frontier.URLFrontier).get =
      (some { priority := 0, depth := 0, url := "http://a.com/" },
       { max_depth := 3, max_urls := 1000,
         queue := [],
         seen_urls := {"http://a.com/"},
         total_added := 1 }) := by
    unfold Frontier.URLFrontier.get
    simp [Heapq.heappop, Heapq.siftup, Heapq.siftupLoop, Heapq.childSel,
      Heapq.siftdownLoop]
  rw [hc1, hc2]
  refine ⟨by decide, by decide, by decide, by decide⟩

/-- C2 (amended): for a URL handled by a worker — on a truthy result the URL
is recorded in the crawled set (and the failure map is untouched); on a
`None` result the frontier is entirely unchanged and only `pages_failed`
increments (none of the three dispositions); on an exception the failure
count increments, a terminal failure (count reaching `max_retries` = 3)
leaves the queue unchanged, and for a previously admitted URL (hash in the
seen set) the attempted retry re-enqueue is rejected, so the queue is
unchanged in that case too. -/
theorem C2_worker_dispositions (st : Engine.EngineState) (e : Frontier.URLEntry)
    (internal external : List String) (now : Nat) :
    ((Engine.worker_handle st e (.page internal external) now).frontier.crawled_urls =
        insert (Frontier.url_hash e.url) st.frontier.crawled_urls ∧
      (Engine.worker_handle st e (.page internal external) now).frontier.failed_urls =
        st.frontier.failed_urls ∧
      (Engine.worker_handle st e (.page internal external) now).pages_crawled =
        st.pages_crawled + 1) ∧
    ((Engine.worker_handle st e .nullResult now).frontier = st.frontier ∧
      (Engine.worker_handle st e .nullResult now).pages_failed = st.pages_failed + 1) ∧
    ((Engine.worker_handle st e .exc now).frontier.failed_urls (Frontier.url_hash e.url) =
        st.frontier.failed_urls (Frontier.url_hash e.url) + 1 ∧
      (st.frontier.failed_urls (Frontier.url_hash e.url) + 1 ≥ 3 →
        (Engine.worker_handle st e .exc now).frontier.queue = st.frontier.queue) ∧
      (Frontier.url_hash e.url ∈ st.frontier.seen_urls →
        (Engine.worker_handle st e .exc now).frontier.queue = st.frontier.queue)) := by
  refine ⟨⟨?_, ?_, rfl⟩, ⟨rfl, rfl⟩, ?_, ?_, ?_⟩
  · unfold Engine.worker_handle
    simp only []
    rw [Engine.process_links_crawled]
    rfl
  · unfold Engine.worker_handle
    simp only []
    rw [Engine.process_links_failed]
    rfl
  · unfold Engine.worker_handle
    simp only []
    split
    · rw [Frontier.add_failed]
      unfold Frontier.URLFrontier.mark_failed
      simp
    · unfold Frontier.URLFrontier.mark_failed
      simp
  · intro hge
    unfold Engine.worker_handle
    simp only []
    split
    · rename_i hcond
      unfold Frontier.URLFrontier.mark_failed at hcond
      simp at hcond
      omega
    · unfold Frontier.URLFrontier.mark_failed
      simp only []
  · intro hseen
    unfold Engine.worker_handle
    simp only []
    split
    · rw [Frontier.add_seen_queue]
      · unfold Frontier.URLFrontier.mark_failed
        simp only []
      · unfold Frontier.URLFrontier.mark_failed
        simp only []
        exact hseen
    · unfold Frontier.URLFrontier.mark_failed
      simp only []

/-- Witness for C2 (amended) at a concrete engine state, with the
exception-case implications discharged. -/
theorem C2_worker_dispositions_witness :
    (Engine.worker_handle
        ⟨{ max_depth := 3, max_urls := 1000, queue := [],
            seen_urls := {"http://a.com/"}, total_added := 1 }, false, 0, 0⟩
        { priority := 0, depth := 0, url := "http://a.com/" } .exc 1).frontier.failed_urls
      (Frontier.url_hash "http://a.com/") =
      ({ max_depth := 3, max_urls := 1000, queue := [],
          seen_urls := {"http://a.com/"}, total_added := 1 } :
        Frontier.URLFrontier).failed_urls (Frontier.url_hash "http://a.com/") + 1 ∧
    (Engine.worker_handle
        ⟨{ max_depth := 3, max_urls := 1000, queue := [],
            seen_urls := {"http://a.com/"}, total_added := 1 }, false, 0, 0⟩
        { priority := 0, depth := 0, url := "http://a.com/" } .exc 1).frontier.queue =
      ({ max_depth := 3, max_urls := 1000, queue := [],
          seen_urls := {"http://a.com/"}, total_added := 1 } :
        Frontier.URLFrontier).queue :=
  ⟨(C2_worker_dispositions
      ⟨{ max_depth := 3, max_urls := 1000, queue := [],
          seen_urls := {"http://a.com/"}, total_added := 1 }, false, 0, 0⟩
      { priority := 0, depth := 0, url := "http://a.com/" } [] [] 1).2.2.1,
   (C2_worker_dispositions
      ⟨{ max_depth := 3, max_urls := 1000, queue := [],
          seen_urls := {"http://a.com/"}, total_added := 1 }, false, 0, 0⟩
      { priority := 0, depth := 0, url := "http://a.com/" } [] [] 1).2.2.2.2 (by decide)⟩

namespace UrlLib

theorem partitionChar_eq_none {sep : Char} {l : List Char}
    (h : partitionChar sep l = none) : sep ∉ l := by
  induction l with
  | nil => simp
  | cons c rest ih =>
    unfold partitionChar at h
    by_cases hc : c = sep
    · rw [if_pos hc] at h; exact absurd h (by simp)
    · rw [if_neg hc] at h
      cases hpc : partitionChar sep rest with
      | none =>
        intro hm
        rcases List.mem_cons.1 hm with h1 | h1
        · exact hc h1.symm
        · exact ih hpc h1
      | some p => rw [hpc] at h; exact absurd h (by simp)

theorem partitionChar_eq_some {sep : Char} {l a b : List Char}
    (h : partitionChar sep l = some (a, b)) : l = a ++ sep :: b ∧ sep ∉ a := by
  induction l generalizing a b with
  | nil => simp [partitionChar] at h
  | cons c rest ih =>
    unfold partitionChar at h
    by_cases hc : c = sep
    · rw [if_pos hc] at h
      simp only [Option.some.injEq, Prod.mk.injEq] at h
      obtain ⟨h1, h2⟩ := h
      subst h1; subst h2; subst hc
      simp
    · rw [if_neg hc] at h
      cases hpc : partitionChar sep rest with
      | none => rw [hpc] at h; exact absurd h (by simp)
      | some p =>
        obtain ⟨a0, b0⟩ := p
        rw [hpc] at h
        simp only [Option.some.injEq, Prod.mk.injEq] at h
        obtain ⟨h1, h2⟩ := h
        subst h1; subst h2
        obtain ⟨hre, hnm⟩ := ih hpc
        constructor
        · rw [hre]; rfl
        · intro hm
          rcases List.mem_cons.1 hm with h1 | h1
          · exact hc h1.symm
          · exact hnm h1

theorem rpartitionChar_eq_some {sep : Char} {l a b : List Char}
    (h : rpartitionChar sep l = some (a, b)) : l = a ++ sep :: b ∧ sep ∉ b := by
  unfold rpartitionChar at h
  cases hpc : partitionChar sep l.reverse with
  | none => rw [hpc] at h; exact absurd h (by simp)
  | some p =>
    obtain ⟨a0, b0⟩ := p
    rw [hpc] at h
    simp only [Option.some.injEq, Prod.mk.injEq] at h
    obtain ⟨h1, h2⟩ := h
    subst h1; subst h2
    obtain ⟨hre, hnm⟩ := partitionChar_eq_some hpc
    constructor
    · have h3 : l = (a0 ++ sep :: b0).reverse := by rw [← hre, List.reverse_reverse]
      rw [h3]
      simp [List.reverse_append]
    · intro hm
      exact hnm (by simpa using (List.mem_reverse.2 hm))

theorem splitnetloc_fst {l : List Char} :
    ∀ c ∈ (splitnetloc l).1, c ∈ l ∧ ¬(c = '/' ∨ c = '?' ∨ c = '#') := by
  induction l with
  | nil => simp [splitnetloc]
  | cons c rest ih =>
    unfold splitnetloc
    by_cases hc : c = '/' ∨ c = '?' ∨ c = '#'
    · rw [if_pos hc]; simp
    · rw [if_neg hc]
      simp only []
      intro x hx
      rcases List.mem_cons.1 hx with h1 | h1
      · subst h1; exact ⟨List.mem_cons_self _ _, hc⟩
      · obtain ⟨hm, hn⟩ := ih x h1
        exact ⟨List.mem_cons_of_mem _ hm, hn⟩

end UrlLib

namespace UrlLib

theorem char_toNat_ofNat {n : Nat} (h : n < 55296) : (Char.ofNat n).toNat = n := by
  unfold Char.ofNat
  rw [dif_pos (Or.inl h : Nat.isValidChar n)]
  rfl

theorem char_toLower_eq {c : Char} (h : Char.toLower c = '?') : c = '?' := by
  unfold Char.toLower at h
  simp only [] at h
  by_cases hc : c.toNat ≥ 65 ∧ c.toNat ≤ 90
  · rw [if_pos hc] at h
    have h2 : (Char.ofNat (c.toNat + 32)).toNat = c.toNat + 32 :=
      char_toNat_ofNat (by omega)
    rw [h] at h2
    have h3 : ('?' : Char).toNat = 63 := by decide
    omega
  · rw [if_neg hc] at h
    exact h

theorem mem_map_toLower {l : List Char} (h : '?' ∉ l) :
    '?' ∉ l.map Char.toLower := by
  intro hm
  obtain ⟨c, hc, heq⟩ := List.mem_map.1 hm
  exact h (char_toLower_eq heq ▸ hc)

theorem hexDigitUpper_ne {k : Nat} (hk : k < 16) : hexDigitUpper k ≠ '?' := by
  interval_cases k <;> decide

theorem utf8Bytes_lt {c : Char} : ∀ b ∈ utf8Bytes c, b < 256 := by
  have hc : c.toNat < 1114112 := by
    have he : c.toNat = c.val.toNat := rfl
    rcases c.valid with h | h
    · have := h; omega
    · have := h.2; omega
  unfold utf8Bytes
  simp only []
  by_cases h1 : c.toNat < 128
  · rw [if_pos h1]; intro b hb; simp at hb; omega
  · rw [if_neg h1]
    by_cases h2 : c.toNat < 2048
    · rw [if_pos h2]; intro b hb; simp at hb
      have q1 : c.toNat / 64 < 32 := by omega
      have q2 : c.toNat % 64 < 64 := Nat.mod_lt _ (by decide)
      rcases hb with rfl | rfl <;> omega
    · rw [if_neg h2]
      by_cases h3 : c.toNat < 65536
      · rw [if_pos h3]; intro b hb; simp at hb
        have q1 : c.toNat / 4096 < 16 := by omega
        have q2 : c.toNat / 64 % 64 < 64 := Nat.mod_lt _ (by decide)
        have q3 : c.toNat % 64 < 64 := Nat.mod_lt _ (by decide)
        rcases hb with rfl | rfl | rfl <;> omega
      · rw [if_neg h3]; intro b hb; simp at hb
        have q1 : c.toNat / 262144 < 5 := by omega
        have q2 : c.toNat / 4096 % 64 < 64 := Nat.mod_lt _ (by decide)
        have q3 : c.toNat / 64 % 64 < 64 := Nat.mod_lt _ (by decide)
        have q4 : c.toNat % 64 < 64 := Nat.mod_lt _ (by decide)
        rcases hb with rfl | rfl | rfl | rfl <;> omega

theorem pct_ne {b : Nat} (hb : b < 256) : '?' ∉ pct b := by
  unfold pct
  intro hm
  simp only [List.mem_cons, List.not_mem_nil, or_false] at hm
  rcases hm with h | h | h
  · exact absurd h.symm (by decide)
  · exact hexDigitUpper_ne (by omega : b / 16 < 16) h.symm
  · exact hexDigitUpper_ne (Nat.mod_lt _ (by decide) : b % 16 < 16) h.symm

theorem quoteChar_no_qmark {safe : List Char} (hs : '?' ∉ safe) (c : Char) :
    '?' ∉ quoteChar safe c := by
  unfold quoteChar
  by_cases hcond : (c.isAlphanum || c ∈ ['_', '.', '-', '~'] || c ∈ safe) = true
  · rw [if_pos hcond]
    intro hm
    simp only [List.mem_singleton] at hm
    subst hm
    simp only [Bool.or_eq_true, decide_eq_true_eq] at hcond
    rcases hcond with (h | h) | h
    · exact absurd h (by decide)
    · exact absurd h (by decide)
    · exact hs h
  · rw [if_neg hcond]
    intro hm
    obtain ⟨l, hl, hml⟩ := List.mem_flatten.1 hm
    obtain ⟨b, hb, heq⟩ := List.mem_map.1 hl
    exact pct_ne (utf8Bytes_lt b hb) (heq ▸ hml)

theorem quote_no_qmark {s safe : String} (hs : '?' ∉ safe.data) :
    '?' ∉ (quote s safe).data := by
  unfold quote
  intro hm
  obtain ⟨l, hl, hml⟩ := List.mem_flatten.1 hm
  obtain ⟨c, _, heq⟩ := List.mem_map.1 hl
  exact quoteChar_no_qmark hs c (heq ▸ hml)

theorem natDigitsCore_mem {f : Nat} : ∀ {n : Nat} {acc : List Char},
    ∀ c ∈ natDigitsCore f n acc, c ∈ acc ∨ c.isDigit = true := by
  induction f with
  | zero => intro n acc c hc; exact Or.inl hc
  | succ f ih =>
    intro n acc c hc
    unfold natDigitsCore at hc
    simp only [] at hc
    have hdig : (Char.ofNat (48 + n % 10)).isDigit = true := by
      have h10 : n % 10 < 10 := Nat.mod_lt _ (by decide)
      interval_cases h : n % 10 <;> decide
    by_cases hn : n < 10
    · rw [if_pos hn] at hc
      rcases List.mem_cons.1 hc with rfl | hc
      · exact Or.inr hdig
      · exact Or.inl hc
    · rw [if_neg hn] at hc
      rcases ih c hc with hacc | hd
      · rcases List.mem_cons.1 hacc with rfl | hacc
        · exact Or.inr hdig
        · exact Or.inl hacc
      · exact Or.inr hd

theorem natRepr_no_qmark {n : Nat} : '?' ∉ (natRepr n).data := by
  intro hm
  rcases natDigitsCore_mem _ hm with h | h
  · exact absurd h (List.not_mem_nil _)
  · exact absurd h (by decide)

end UrlLib

namespace UrlLib

theorem splitFragmentQuery_no_qmark {rest : List Char} :
    '?' ∉ (splitFragmentQuery rest).1 := by
  unfold splitFragmentQuery
  simp only []
  cases hfr : partitionChar '#' rest with
  | none =>
    cases hqr : partitionChar '?' rest with
    | none => exact partitionChar_eq_none hqr
    | some p =>
      obtain ⟨a, b⟩ := p
      simp only []
      exact (partitionChar_eq_some hqr).2
  | some p0 =>
    obtain ⟨f1, f2⟩ := p0
    simp only []
    cases hqr : partitionChar '?' f1 with
    | none => exact partitionChar_eq_none hqr
    | some p =>
      obtain ⟨a, b⟩ := p
      simp only []
      exact (partitionChar_eq_some hqr).2

theorem urlsplitList_no_qmark {l : List Char} {sr : SplitResult}
    (h : urlsplitList l = some sr) :
    '?' ∉ sr.netloc.data ∧ '?' ∉ sr.path.data := by
  unfold urlsplitList at h
  simp only [] at h
  split at h
  · split at h
    · exact absurd h (by simp)
    · simp only [Option.some.injEq] at h
      subst h
      constructor
      · dsimp only
        intro hm
        exact (splitnetloc_fst _ hm).2 (Or.inr (Or.inl rfl))
      · exact splitFragmentQuery_no_qmark
  · split at h
    · exact absurd h (by simp)
    · simp only [Option.some.injEq] at h
      subst h
      constructor
      · dsimp only
        simp
      · exact splitFragmentQuery_no_qmark

theorem splitparams_no_qmark {l : List Char} (h : '?' ∉ l) :
    '?' ∉ (splitparams l).1 ∧ '?' ∉ (splitparams l).2 := by
  unfold splitparams
  split
  · cases hrp : rpartitionChar '/' l with
    | none => exact ⟨h, by simp⟩
    | some p0 =>
      obtain ⟨before, after⟩ := p0
      simp only []
      obtain ⟨hl, _⟩ := rpartitionChar_eq_some hrp
      cases hpc : partitionChar ';' after with
      | none => exact ⟨h, by simp⟩
      | some p =>
        obtain ⟨a, b⟩ := p
        simp only []
        obtain ⟨ha, _⟩ := partitionChar_eq_some hpc
        constructor
        · intro hm
          apply h
          rw [hl, ha]
          rcases List.mem_append.1 hm with hm | hm
          · exact List.mem_append.2 (Or.inl hm)
          · rcases List.mem_cons.1 hm with hm | hm
            · exact absurd hm (by decide)
            · exact List.mem_append.2 (Or.inr (List.mem_cons.2
                (Or.inr (List.mem_append.2 (Or.inl hm)))))
        · intro hm
          apply h
          rw [hl, ha]
          exact List.mem_append.2 (Or.inr (List.mem_cons.2
            (Or.inr (List.mem_append.2 (Or.inr (List.mem_cons.2 (Or.inr hm)))))))
  · cases hpc : partitionChar ';' l with
    | none => exact ⟨h, by simp⟩
    | some p =>
      obtain ⟨a, b⟩ := p
      simp only []
      obtain ⟨ha, _⟩ := partitionChar_eq_some hpc
      rw [ha] at h
      constructor
      · intro hm; exact h (List.mem_append.2 (Or.inl hm))
      · intro hm; exact h (List.mem_append.2 (Or.inr (List.mem_cons.2 (Or.inr hm))))

theorem urlparse_no_qmark {u : String} {p : ParseResult}
    (h : urlparse u = some p) :
    '?' ∉ p.netloc.data ∧ '?' ∉ p.path.data ∧ '?' ∉ p.params.data := by
  unfold urlparse at h
  split at h
  · exact absurd h (by simp)
  · rename_i sr heq
    obtain ⟨hnet, hpath⟩ := urlsplitList_no_qmark heq
    split at h
    · simp only [Option.some.injEq] at h
      subst h
      obtain ⟨h1, h2⟩ := splitparams_no_qmark hpath
      exact ⟨hnet, h1, h2⟩
    · simp only [Option.some.injEq] at h
      subst h
      exact ⟨hnet, hpath, by simp⟩

end UrlLib

namespace UrlLib

theorem hostinfo_fst_subset {nl : List Char} :
    ∀ c ∈ (hostinfo nl).1, c ∈ nl := by
  unfold hostinfo
  simp only []
  cases hrp : rpartitionChar '@' nl with
  | none =>
    cases hpc : partitionChar ':' nl with
    | none => simp only []; intro c hc; exact hc
    | some p =>
      obtain ⟨a, b⟩ := p
      simp only []
      intro c hc
      rw [(partitionChar_eq_some hpc).1]
      exact List.mem_append.2 (Or.inl hc)
  | some p0 =>
    obtain ⟨ui, hi⟩ := p0
    simp only []
    have hnl := (rpartitionChar_eq_some hrp).1
    cases hpc : partitionChar ':' hi with
    | none =>
      simp only []
      intro c hc
      rw [hnl]
      exact List.mem_append.2 (Or.inr (List.mem_cons.2 (Or.inr hc)))
    | some p =>
      obtain ⟨a, b⟩ := p
      simp only []
      intro c hc
      rw [hnl, (partitionChar_eq_some hpc).1]
      exact List.mem_append.2 (Or.inr (List.mem_cons.2
        (Or.inr (List.mem_append.2 (Or.inl hc)))))

theorem hostnameOf_no_qmark {nl : List Char} {s : String}
    (hn : '?' ∉ nl) (h : hostnameOf nl = some s) : '?' ∉ s.data := by
  unfold hostnameOf at h
  simp only [] at h
  have hh : '?' ∉ (hostinfo nl).1 := fun hm => hn (hostinfo_fst_subset _ hm)
  split at h
  · exact absurd h (by simp)
  · split at h
    · simp only [Option.some.injEq] at h
      subst h
      exact mem_map_toLower hh
    · rename_i a b hpc
      simp only [Option.some.injEq] at h
      subst h
      intro hm
      rcases List.mem_append.1 hm with hm | hm
      · exact mem_map_toLower (fun hx => hh ((partitionChar_eq_some hpc).1 ▸
          List.mem_append.2 (Or.inl hx))) hm
      · rcases List.mem_cons.1 hm with hm | hm
        · exact absurd hm (by decide)
        · exact hh ((partitionChar_eq_some hpc).1 ▸
            List.mem_append.2 (Or.inr (List.mem_cons.2 (Or.inr hm))))

theorem usernameOf_subset {nl : List Char} {s : String}
    (h : usernameOf nl = some s) : ∀ c ∈ s.data, c ∈ nl := by
  unfold usernameOf at h
  split at h
  · exact absurd h (by simp)
  · rename_i ui hi hrp
    have hnl := (rpartitionChar_eq_some hrp).1
    split at h
    · rename_i hpc
      simp only [Option.some.injEq] at h
      subst h
      intro c hc
      rw [hnl]
      exact List.mem_append.2 (Or.inl hc)
    · rename_i a b hpc
      simp only [Option.some.injEq] at h
      subst h
      intro c hc
      rw [hnl, (partitionChar_eq_some hpc).1]
      exact List.mem_append.2 (Or.inl (List.mem_append.2 (Or.inl hc)))

theorem passwordOf_subset {nl : List Char} {s : String}
    (h : passwordOf nl = some s) : ∀ c ∈ s.data, c ∈ nl := by
  unfold passwordOf at h
  split at h
  · exact absurd h (by simp)
  · rename_i ui hi hrp
    have hnl := (rpartitionChar_eq_some hrp).1
    split at h
    · exact absurd h (by simp)
    · rename_i a b hpc
      simp only [Option.some.injEq] at h
      subst h
      intro c hc
      rw [hnl, (partitionChar_eq_some hpc).1]
      exact List.mem_append.2 (Or.inl (List.mem_append.2
        (Or.inr (List.mem_cons.2 (Or.inr hc)))))

end UrlLib

namespace Normalizer

theorem stripDots_subset {s : String} : ∀ c ∈ (stripDots s).data, c ∈ s.data := by
  unfold stripDots
  intro c hc
  have h1 := (List.dropWhile_sublist (fun x => decide (x = '.'))
    (l := (s.data.dropWhile (fun x => decide (x = '.'))).reverse)).subset
  have h2 := (List.dropWhile_sublist (fun x => decide (x = '.')) (l := s.data)).subset
  have hc2 := h1 (List.mem_reverse.1 hc)
  exact h2 (List.mem_reverse.1 hc2)

end Normalizer

namespace UrlLib

theorem string_data_append (a b : String) : (a ++ b).data = a.data ++ b.data := rfl

theorem urlunparse_no_qmark {scheme netloc path params query fragment : String}
    (h1 : '?' ∉ scheme.data) (h2 : '?' ∉ netloc.data)
    (h3 : '?' ∉ path.data) (h4 : '?' ∉ params.data)
    (hq : query = "") (hf : fragment = "") :
    '?' ∉ (urlunparse scheme netloc path params query fragment).data := by
  subst hq; subst hf
  unfold urlunparse urlunsplit
  simp only []
  have hu0 : '?' ∉ (if params ≠ "" then path ++ ";" ++ params else path).data := by
    split
    · intro hm
      rw [string_data_append, string_data_append] at hm
      rcases List.mem_append.1 hm with hm | hm
      · rcases List.mem_append.1 hm with hm | hm
        · exact h3 hm
        · exact absurd hm (by decide)
      · exact h4 hm
    · exact h3
  generalize (if params ≠ "" then path ++ ";" ++ params else path) = u0 at hu0
  have hu1 : ∀ u1 : String, '?' ∉ u1.data →
      '?' ∉ (if scheme ≠ "" then scheme ++ ":" ++ u1 else u1).data := by
    intro u1 hu
    split
    · intro hm
      rw [string_data_append, string_data_append] at hm
      rcases List.mem_append.1 hm with hm | hm
      · rcases List.mem_append.1 hm with hm | hm
        · exact h1 hm
        · exact absurd hm (by decide)
      · exact hu hm
    · exact hu
  have hmain : '?' ∉ (if netloc ≠ "" ∨ scheme ≠ "" ∧ scheme ∈ uses_netloc ∧
      List.take 2 u0.data ≠ ['/', '/'] then
        "//" ++ netloc ++ (if u0 ≠ "" ∧ List.take 1 u0.data ≠ ['/'] then "/" ++ u0 else u0)
      else u0).data := by
    split
    · intro hm
      rw [string_data_append, string_data_append] at hm
      rcases List.mem_append.1 hm with hm | hm
      · rcases List.mem_append.1 hm with hm | hm
        · exact absurd hm (by decide)
        · exact h2 hm
      · revert hm
        split
        · intro hm
          rw [string_data_append] at hm
          rcases List.mem_append.1 hm with hm | hm
          · exact absurd hm (by decide)
          · exact hu0 hm
        · exact hu0
    · exact hu0
  have hq1 : ∀ u2 : String, '?' ∉ u2.data →
      '?' ∉ (if ("" : String) ≠ "" then u2 ++ "?" ++ "" else u2).data := by
    intro u2 hu
    rw [if_neg (by simp)]
    exact hu
  exact hq1 _ (hq1 _ (hu1 _ hmain))

end UrlLib

namespace Normalizer

theorem normalize_eq_some {cfg : URLNormalizer} {u v : String}
    (h : normalize cfg u = some v) :
    ∃ p netloc, UrlLib.urlparse (UrlLib.unquote u) = some p ∧
      Frontier.py_lower p.scheme ∈ ALLOWED_SCHEMES ∧
      ¬ '?' ∈ netloc.data ∧
      v = UrlLib.urlunparse (Frontier.py_lower p.scheme) netloc
            (normalize_path (if p.path = "" then "/" else p.path)) p.params
            (normalize_query cfg p.query)
            (if cfg.remove_fragments then "" else p.fragment) := by
  unfold normalize at h
  simp only [] at h
  split at h
  · exact absurd h (by simp)
  · rename_i parsed hp
    split at h
    · exact absurd h (by simp)
    · rename_i hsch
      split at h
      · exact absurd h (by simp)
      · split at h
        · exact absurd h (by simp)
        · rename_i hostname0 hh
          split at h
          · exact absurd h (by simp)
          · rename_i port0 hport
            simp only [Option.some.injEq] at h
            have hnet0 := (UrlLib.urlparse_no_qmark hp).1
            have hbase : ¬ '?' ∈ (stripDots (Frontier.py_lower hostname0)).data := by
              intro hm
              exact UrlLib.mem_map_toLower (UrlLib.hostnameOf_no_qmark hnet0 hh)
                (stripDots_subset _ hm)
            have hnl1 : ∀ po : Option Nat,
                ¬ '?' ∈ ((if truthyPort po then
                    stripDots (Frontier.py_lower hostname0) ++ ":" ++
                      UrlLib.natRepr (po.getD 0)
                  else stripDots (Frontier.py_lower hostname0))).data := by
              intro po
              split
              · intro hm
                rw [UrlLib.string_data_append, UrlLib.string_data_append] at hm
                rcases List.mem_append.1 hm with hm | hm
                · rcases List.mem_append.1 hm with hm | hm
                  · exact hbase hm
                  · exact absurd hm (by decide)
                · exact UrlLib.natRepr_no_qmark hm
              · exact hbase
            refine ⟨parsed, _, hp, not_not.1 hsch, ?_, h.symm⟩
            split
            · rename_i u2 hu2
              split
              · intro hm
                rw [UrlLib.string_data_append, UrlLib.string_data_append] at hm
                rcases List.mem_append.1 hm with hm | hm
                · rcases List.mem_append.1 hm with hm | hm
                  · revert hm
                    split
                    · rename_i pw hpw
                      split
                      · intro hm
                        rw [UrlLib.string_data_append,
                          UrlLib.string_data_append] at hm
                        rcases List.mem_append.1 hm with hm | hm
                        · rcases List.mem_append.1 hm with hm | hm
                          · exact hnet0 (UrlLib.usernameOf_subset hu2 _ hm)
                          · exact absurd hm (by decide)
                        · exact hnet0 (UrlLib.passwordOf_subset hpw _ hm)
                      · intro hm
                        exact hnet0 (UrlLib.usernameOf_subset hu2 _ hm)
                    · intro hm
                      exact hnet0 (UrlLib.usernameOf_subset hu2 _ hm)
                  · exact absurd hm (by decide)
                · exact hnl1 _ hm
              · exact hnl1 _
            · exact hnl1 _

end Normalizer

/-- C7: refuted as stated — `URLNormalizer.normalize` is not idempotent.  The
leading `unquote` decodes one layer of percent-escapes per pass, so the output
of a first normalization (which re-encodes `#` in a query value as `%23`) is
decoded again by a second pass, which moves the `#` out of the query: the
admissible URL `http://a.com/?a=%2523` normalizes to `http://a.com/?a=%23`,
which normalizes to `http://a.com/?a=`.  A second failure family: a hostname
of bare dots is stripped to the empty netloc (`http://./x` normalizes to
`http:///x`), and the re-normalization of that output returns `none`. -/
theorem C7_normalize_not_idempotent :
    Normalizer.normalize {} "http://a.com/?a=%2523" = some "http://a.com/?a=%23" ∧
    Normalizer.normalize {} "http://a.com/?a=%23" = some "http://a.com/?a=" ∧
    ("http://a.com/?a=" : String) ≠ "http://a.com/?a=%23" ∧
    Normalizer.normalize {} "http://./x" = some "http:///x" ∧
    Normalizer.normalize {} "http:///x" = none :=
  ⟨by decide, by decide, by decide, by decide, by decide⟩

/-- C8: with tracking-parameter removal enabled, a query whose parsed keys all
lower-case into the tracking set normalizes to the empty query, and (with
fragments also removed, the default) the normalized URL contains no `?` at
all. -/
theorem C8_tracking_params_stripped (cfg : Normalizer.URLNormalizer)
    (u : String) (p : UrlLib.ParseResult)
    (hrt : cfg.remove_tracking = true) (hrf : cfg.remove_fragments = true)
    (hp : UrlLib.urlparse (UrlLib.unquote u) = some p)
    (hall : ∀ kv ∈ UrlLib.parse_qs p.query,
      Frontier.py_lower kv.1 ∈ Normalizer.TRACKING_PARAMS) :
    Normalizer.normalize_query cfg p.query = "" ∧
    ∀ v, Normalizer.normalize cfg u = some v → ¬ '?' ∈ v.data := by
  have hq : Normalizer.normalize_query cfg p.query = "" := by
    unfold Normalizer.normalize_query
    by_cases h0 : p.query = ""
    · rw [if_pos h0]
    · rw [if_neg h0]
      simp only []
      have hfil : (UrlLib.parse_qs p.query).filter
          (fun kv => ¬ Frontier.py_lower kv.1 ∈ Normalizer.TRACKING_PARAMS) = [] := by
        rw [List.filter_eq_nil_iff]
        intro kv hkv
        simp [hall kv hkv]
      rw [if_pos hrt, hfil]
      rfl
  refine ⟨hq, ?_⟩
  intro v hv
  obtain ⟨p2, netloc, hp2, hsch, hnet, hveq⟩ := Normalizer.normalize_eq_some hv
  rw [hp] at hp2
  injection hp2 with he
  subst he
  subst hveq
  apply UrlLib.urlunparse_no_qmark
  · simp only [Normalizer.ALLOWED_SCHEMES, List.mem_cons, List.mem_singleton,
      List.not_mem_nil, or_false] at hsch
    rcases hsch with h | h <;> rw [h] <;> decide
  · exact hnet
  · unfold Normalizer.normalize_path
    simp only []
    exact UrlLib.quote_no_qmark (by decide)
  · exact (UrlLib.urlparse_no_qmark hp).2.2
  · exact hq
  · rw [if_pos hrf]

theorem C8_tracking_params_stripped_witness :
    Normalizer.normalize_query {} "utm_source=x&fbclid=y" = "" ∧
    ¬ '?' ∈ "http://a.com/".data := by
  have h := C8_tracking_params_stripped {} "http://a.com/?utm_source=x&fbclid=y"
    ⟨"http", "a.com", "/", "", "utm_source=x&fbclid=y", ""⟩ rfl rfl (by decide)
    (by decide)
  exact ⟨h.1, h.2 "http://a.com/" (by decide)⟩
